import Mathlib

/-!
Verification of the habitTracker calculation engine, schedule utilities and
goal manager against their specification.

Shallow embedding notes:

- JavaScript numbers are modelled by `ℚ`.  Every concrete computation the
  claims mention is exact in binary floating point as well as in `ℚ`
  (integer arithmetic, halves, quarters), so the two semantics agree on all
  statements proved here.  `NaN` is modelled by `none` in `Option ℚ`
  (written `JNum` below); infinities never arise in the modelled code paths
  because division by zero is intercepted before dividing
  (src/js/utils/calc-engine.js line 191) and `ℚ` does not overflow.
- JavaScript `null` results inside the parser are modelled by the outer
  `none` of `JVal = Option JNum`.
- Thrown exceptions are modelled by `Except.error`; the `try`/`catch` in
  `evaluate` maps them to `none` (JS `null`).
- The tokenizer loop and the recursive-descent parser are modelled with an
  explicit fuel parameter to make them total Lean functions.  Real runs of
  the JS code never exhaust the chosen fuel; the fuel-out value `none` of
  `PResult` can only be produced by inputs on which the JS loop would not
  terminate (an empty-string field name), and `evaluate` maps it to `null`
  like every other failure.
- Dates: `new Date(y, m - 1, d)` (local midnight) and `new Date("YYYY-MM-DD")`
  (UTC midnight) are both mapped to a civil day number (`daysFromCivil`).
  The code compares them via `Math.round(diffMs / 86400000)`, which rounds
  away the sub-day timezone/DST offset between the two, so the whole-day
  difference of the day numbers is the faithful model of `diffDays`.
-/

/-- A JavaScript value as it can occur in the `fieldValues` map or as the
`expression` argument of `evaluate`. -/
inductive JSValue where
  | num : ℚ → JSValue
  | str : String → JSValue
  | bool : Bool → JSValue
  | null : JSValue
deriving DecidableEq, Repr

/-- A JS number: `none` models `NaN`. -/
abbrev JNum := Option ℚ

/-- A parser value: the outer `none` models the JS `null` that the parser
returns for division by zero and poisoned subresults. -/
abbrev JVal := Option JNum

/-- Characters matched by the whitespace test `/\s/` (the source only ever
meets ASCII whitespace). -/
def isWsChar (c : Char) : Bool :=
  c = ' ' || c = '\t' || c = '\n' || c = '\r'

/-- Value of a list of decimal digit characters. -/
def natOfDigits (l : List Char) : Nat :=
  l.foldl (fun n c => 10 * n + (c.toNat - '0'.toNat)) 0

/-- Value of the decimal literal `ds . fs` (integer digits `ds`, fraction
digits `fs`), as computed by `parseFloat` on the regex match. -/
def decValue (ds fs : List Char) : ℚ :=
  if fs = [] then ((natOfDigits ds : Nat) : ℚ)
  else ((natOfDigits ds : Nat) : ℚ) + ((natOfDigits fs : Nat) : ℚ) / ((10 : ℚ) ^ fs.length)

/-- Model of `parseFloat` on a string: skip leading whitespace, optional
sign, then a decimal number `\d+(\.\d*)?` or `\.\d+`; anything else is
`NaN` (`none`).  Exponent notation is not modelled; the repository only
stores plain decimals. -/
def parseFloatChars (cs0 : List Char) : Option ℚ :=
  let cs := cs0.dropWhile isWsChar
  let signAndRest : (Int × List Char) :=
    match cs with
    | '-' :: r => (-1, r)
    | '+' :: r => (1, r)
    | _ => (1, cs)
  let sgn := signAndRest.1
  let cs1 := signAndRest.2
  let ds := cs1.takeWhile Char.isDigit
  if ds = [] then
    match cs1 with
    | '.' :: r =>
      let fs := r.takeWhile Char.isDigit
      if fs = [] then none else some ((sgn : ℚ) * decValue [] fs)
    | _ => none
  else
    match cs1.drop ds.length with
    | '.' :: r =>
      let fs := r.takeWhile Char.isDigit
      some ((sgn : ℚ) * decValue ds fs)
    | _ => some ((sgn : ℚ) * decValue ds [])

/-- Model of `parseFloat(val)` for a field value (the value is coerced to a
string first; for a finite number that round-trips exactly).  Booleans
coerce to "true"/"false", hence `NaN`. -/
def jsParseFloat : JSValue → Option ℚ
  | .num q => some q
  | .str s => parseFloatChars s.data
  | .bool _ => none
  | .null => none

/-- Day number of the civil date `(y, m, d)` with day 0 = 1970-01-01
(Howard Hinnant's `days_from_civil`).  The formula is linear in month and
day offsets exactly like the argument normalization of the JS `Date`
constructor, so it models `new Date(y, m - 1, d)` for arbitrary integer
arguments. -/
def daysFromCivil (y m d : Int) : Int :=
  let y1 : Int := if m ≤ 2 then y - 1 else y
  let era : Int := Int.fdiv y1 400
  let yoe : Int := y1 - era * 400
  let mp : Int := (m + 9) % 12
  let doy : Int := Int.fdiv (153 * mp + 2) 5 + d - 1
  let doe : Int := yoe * 365 + Int.fdiv yoe 4 - Int.fdiv yoe 100 + doy
  era * 146097 + doe - 719468

/-- Model of `new Date(year, month - 1, day)` as a civil day number,
including the JS quirk that constructor years 0..99 mean 1900..1999. -/
def jsDateLocal (y m d : Int) : Int :=
  daysFromCivil (if 0 ≤ y ∧ y ≤ 99 then y + 1900 else y) m d

/-- Model of `Date.prototype.getDay`: 0 = Sunday .. 6 = Saturday
(day 0 = 1970-01-01 was a Thursday). -/
def dayOfWeek (y m d : Int) : Int :=
  (jsDateLocal y m d + 4) % 7

/-- Number of days in a civil month (proleptic Gregorian). -/
def daysInMonth (y m : Nat) : Nat :=
  if m = 2 then
    if (y % 4 = 0 ∧ y % 100 ≠ 0) ∨ y % 400 = 0 then 29 else 28
  else if m = 4 ∨ m = 6 ∨ m = 9 ∨ m = 11 then 30
  else 31

/-- Split a character list at a separator character. -/
def splitOnDash : List Char → List (List Char)
  | [] => [[]]
  | c :: cs =>
    if c = '-' then [] :: splitOnDash cs
    else match splitOnDash cs with
      | [] => [[c]]
      | p :: ps => (c :: p) :: ps

/-- Model of `new Date(s)` for a date-only string: the ISO form
`YYYY-MM-DD` parses to UTC midnight of that civil date; every other string
yields an Invalid Date, modelled as `none` (its `getTime()` is `NaN`, and
every arithmetic comparison with it is false). -/
def parseDateString (s : String) : Option Int :=
  match splitOnDash s.data with
  | [ys, ms, ds] =>
    if ys.length = 4 ∧ ms.length = 2 ∧ ds.length = 2
        ∧ ys.all Char.isDigit ∧ ms.all Char.isDigit ∧ ds.all Char.isDigit then
      let y := natOfDigits ys
      let m := natOfDigits ms
      let d := natOfDigits ds
      if 1 ≤ m ∧ m ≤ 12 ∧ 1 ≤ d ∧ d ≤ daysInMonth y m then
        some (daysFromCivil y m d)
      else none
    else none
  | _ => none

/-- Decimal digits of a natural number (with fuel to keep the recursion
structural; the fuel is always sufficient). -/
def natDigitsAux : Nat → Nat → List Char
  | 0, _ => []
  | fuel + 1, n =>
    if n = 0 then []
    else natDigitsAux fuel (n / 10) ++ [Char.ofNat (48 + n % 10)]

/-- Decimal string of an integer, as produced by JS template interpolation. -/
def intToChars (n : Int) : List Char :=
  match n with
  | .ofNat 0 => ['0']
  | .ofNat m => natDigitsAux (m + 1) m
  | .negSucc m => '-' :: natDigitsAux (m + 2) (m + 1)

/-- Model of `String(n).padStart(2, "0")`. -/
def padTwo (n : Int) : List Char :=
  let s := intToChars n
  if s.length < 2 then '0' :: s else s

/-- Model of the date id template
`${year}-${String(month).padStart(2,"0")}-${String(day).padStart(2,"0")}`. -/
def formatDateId (y m d : Int) : String :=
  String.mk (intToChars y ++ '-' :: padTwo m ++ '-' :: padTwo d)

/-- A schedule descriptor (src/js/utils/schedule-utils.js).  Each field is
`none` when the property is absent (or, for `days`/`dates`, not a proper
array, which `Array.isArray` rejects).  `every` is modelled as an integer:
the schedule editor only writes integers.  An absent/falsy `type` or
`startDate` string is modelled by `none` or by the empty string, both of
which take the JS falsy branch. -/
structure Schedule where
  type : Option String
  days : Option (List Int)
  startDate : Option String
  every : Option Int
  dates : Option (List String)
deriving DecidableEq, Repr

/-- Model of `isFieldScheduledForDate(schedule, year, month, day)`. -/
def isFieldScheduledForDate (schedule : Option Schedule) (year month day : Int) : Bool :=
  match schedule with
  | none => true
  | some s =>
    match s.type with
    | none => true
    | some t =>
      if t = "" then true
      else if t = "everyday" then true
      else if t = "weekdays" then
        match s.days with
        | none => false
        | some ds => ds.contains (dayOfWeek year month day)
      else if t = "interval" then
        match s.startDate, s.every with
        | none, _ => true
        | some _, none => true
        | some sd, some e =>
          if sd = "" then true
          else if e < 1 then true
          else
            match parseDateString sd with
            | none => false
            | some start =>
              let diffDays := jsDateLocal year month day - start
              decide (0 ≤ diffDays) && decide (diffDays % e = 0)
      else if t = "dates" then
        match s.dates with
        | none => true
        | some ds => ds.contains (formatDateId year month day)
      else true

/-- A goal definition as read by the goal manager: only its `schedule`
property is consulted. -/
structure GoalDef where
  schedule : Option Schedule
deriving DecidableEq, Repr

/-- Model of `computeDailyCompletion(dailyGoals, schema, year, month, day)`
(src/js/components/goal-manager.js).  `schema` is the association list of
sections; `dailyGoals` is the (possibly null) map of goal states. -/
def computeDailyCompletion (dailyGoals : Option (List (String × JSValue)))
    (schema : List (String × List (String × GoalDef))) (year month day : Int) : ℚ :=
  match List.lookup "Daily Goals" schema with
  | none => 0
  | some dailyGoalsDef =>
    let isChecked : String → Bool := fun goalName =>
      match dailyGoals with
      | none => false
      | some gs => decide (List.lookup goalName gs = some (.bool true))
    let counts := dailyGoalsDef.foldl
      (fun (acc : Nat × Nat) p =>
        if isFieldScheduledForDate p.2.schedule year month day then
          (acc.1 + 1, acc.2 + (if isChecked p.1 then 1 else 0))
        else acc)
      (0, 0)
    if 0 < counts.1 then (counts.2 : ℚ) / (counts.1 : ℚ) else 0

/-- A token of the calculation engine (src/js/utils/calc-engine.js).  Field
references are resolved to NUMBER tokens during tokenization, so only four
token shapes reach the parser. -/
inductive Token where
  | number : JNum → Token
  | operator : Char → Token
  | parenOpen : Token
  | parenClose : Token
deriving DecidableEq, Repr

/-- JS `+` on numbers (NaN propagates). -/
def jadd (x y : JNum) : JNum :=
  match x, y with
  | some a, some b => some (a + b)
  | _, _ => none

/-- JS `-` on numbers (NaN propagates). -/
def jsub (x y : JNum) : JNum :=
  match x, y with
  | some a, some b => some (a - b)
  | _, _ => none

/-- JS `*` on numbers (NaN propagates). -/
def jmul (x y : JNum) : JNum :=
  match x, y with
  | some a, some b => some (a * b)
  | _, _ => none

/-- JS `/` on numbers (NaN propagates; the zero divisor case is intercepted
by the parser before this is applied). -/
def jdiv (x y : JNum) : JNum :=
  match x, y with
  | some a, some b => some (a / b)
  | _, _ => none

/-- JS unary minus on numbers. -/
def jneg (x : JNum) : JNum :=
  x.map (fun q => -q)

/-- Lex the number literal regex `^(\d+\.?\d*)` and give the matched text
its `parseFloat` value. -/
def lexNumber (cs : List Char) : Option (ℚ × List Char) :=
  let ds := cs.takeWhile Char.isDigit
  if ds = [] then none
  else
    match cs.drop ds.length with
    | '.' :: r =>
      let fs := r.takeWhile Char.isDigit
      some (decValue ds fs, r.drop fs.length)
    | rest => some (decValue ds [], rest)

/-- Stable insertion (descending by length) used to model
`Object.keys(fieldValues).sort((a, b) => b.length - a.length)`:
`Array.prototype.sort` is stable, and a stable sort by this comparator is
exactly insertion sort that puts each earlier key before later keys of the
same length. -/
def insertByLen (x : String) : List String → List String
  | [] => [x]
  | y :: ys => if y.length ≤ x.length then x :: y :: ys else y :: insertByLen x ys

/-- Model of the stable JS sort of the field names, longest first. -/
def sortFieldNames : List String → List String
  | [] => []
  | x :: xs => insertByLen x (sortFieldNames xs)

/-- The field-reference matching loop of the tokenizer: the first name in
the (length-sorted) list that is a prefix of the remaining input. -/
def matchField (names : List String) (cs : List Char) : Option String :=
  names.find? (fun n => n.data.isPrefixOf cs)

/-- Prepend a token to a tokenizer result, keeping errors and the
missing-dependency signal (`ok none`). -/
def consTok (t : Token) (r : Except String (Option (List Token))) :
    Except String (Option (List Token)) :=
  match r with
  | .error msg => .error msg
  | .ok none => .ok none
  | .ok (some ts) => .ok (some (t :: ts))

/-- The observable content of a field entry for the tokenizer: `none` when
the key is absent or its value is null/undefined (the missing-dependency
cases), otherwise the `parseFloat` coercion of the value. -/
def fieldResolve (fv : List (String × JSValue)) (k : String) : Option (Option ℚ) :=
  match List.lookup k fv with
  | none => none
  | some .null => none
  | some v => some (jsParseFloat v)

/-- The body of the matched-field case of the tokenizer: abort the whole
scan with the missing-dependency signal if the value is null or undefined,
else push a NUMBER token carrying the `parseFloat` of the value. -/
def resolveStep (fv : List (String × JSValue)) (name : String)
    (r : Except String (Option (List Token))) : Except String (Option (List Token)) :=
  match List.lookup name fv with
  | none => .ok none
  | some .null => .ok none
  | some v => consTok (Token.number (jsParseFloat v)) r

/-- The tokenizer scan loop.  Fuel makes it total: every iteration consumes
at least one character unless an empty-string field name is matched, in
which case the JS loop never terminates; the fuel-out error is only
reachable in that case and `evaluate` turns it into `null` like any other
failure. -/
def tokenizeAux (fv : List (String × JSValue)) (names : List String) :
    Nat → List Char → Except String (Option (List Token))
  | 0, _ => .error "nonterminating scan"
  | _ + 1, [] => .ok (some [])
  | fuel + 1, c :: cs =>
    if isWsChar c then tokenizeAux fv names fuel cs
    else if c = '(' then consTok Token.parenOpen (tokenizeAux fv names fuel cs)
    else if c = ')' then consTok Token.parenClose (tokenizeAux fv names fuel cs)
    else if c = '+' ∨ c = '-' ∨ c = '*' ∨ c = '/' then
      consTok (Token.operator c) (tokenizeAux fv names fuel cs)
    else
      match lexNumber (c :: cs) with
      | some (q, rest) => consTok (Token.number (some q)) (tokenizeAux fv names fuel rest)
      | none =>
        match matchField names (c :: cs) with
        | some name =>
          resolveStep fv name (tokenizeAux fv names fuel ((c :: cs).drop name.length))
        | none => .error "Unexpected character"

/-- Model of `str.trim()`. -/
def trimChars (cs : List Char) : List Char :=
  ((cs.dropWhile isWsChar).reverse.dropWhile isWsChar).reverse

/-- Model of `tokenize(expression, fieldValues)`: `ok (some ts)` is a token
list, `ok none` is the `null` return for a missing dependency, `error` is a
thrown exception. -/
def tokenize (s : String) (fv : List (String × JSValue)) :
    Except String (Option (List Token)) :=
  let str := trimChars s.data
  tokenizeAux fv (sortFieldNames (fv.map Prod.fst)) (str.length + 1) str

/-- Result of a parser method: `none` is fuel exhaustion (unreachable on
real runs), `some (.error msg)` a thrown exception, `some (.ok (v, rest))`
a returned value together with the still-unconsumed tokens. -/
abbrev PResult := Option (Except String (JVal × List Token))

mutual

/-- Model of `Parser.parseExpression` (Term (("+" | "-") Term)*). -/
def parseExpression : Nat → List Token → PResult
  | 0, _ => none
  | fuel + 1, ts =>
    match parseTerm fuel ts with
    | none => none
    | some (.error msg) => some (.error msg)
    | some (.ok (left, rest)) => loopExpr fuel left rest

/-- The while loop inside `parseExpression`. -/
def loopExpr : Nat → JVal → List Token → PResult
  | 0, _, _ => none
  | fuel + 1, left, ts =>
    match ts with
    | Token.operator c :: rest =>
      if c = '+' ∨ c = '-' then
        match parseTerm fuel rest with
        | none => none
        | some (.error msg) => some (.error msg)
        | some (.ok (right, rest1)) =>
          match left, right with
          | some l, some r =>
            loopExpr fuel (some (if c = '+' then jadd l r else jsub l r)) rest1
          | _, _ => some (.ok (none, rest1))
      else some (.ok (left, ts))
    | _ => some (.ok (left, ts))

/-- Model of `Parser.parseTerm` (Factor (("*" | "/") Factor)*). -/
def parseTerm : Nat → List Token → PResult
  | 0, _ => none
  | fuel + 1, ts =>
    match parseFactor fuel ts with
    | none => none
    | some (.error msg) => some (.error msg)
    | some (.ok (left, rest)) => loopTerm fuel left rest

/-- The while loop inside `parseTerm`, including the division-by-zero
interception. -/
def loopTerm : Nat → JVal → List Token → PResult
  | 0, _, _ => none
  | fuel + 1, left, ts =>
    match ts with
    | Token.operator c :: rest =>
      if c = '*' ∨ c = '/' then
        match parseFactor fuel rest with
        | none => none
        | some (.error msg) => some (.error msg)
        | some (.ok (right, rest1)) =>
          match left, right with
          | some l, some r =>
            if c = '/' then
              if r = some 0 then some (.ok (none, rest1))
              else loopTerm fuel (some (jdiv l r)) rest1
            else loopTerm fuel (some (jmul l r)) rest1
          | _, _ => some (.ok (none, rest1))
      else some (.ok (left, ts))
    | _ => some (.ok (left, ts))

/-- Model of `Parser.parseFactor` (NUMBER, parenthesized expression, or
unary minus). -/
def parseFactor : Nat → List Token → PResult
  | 0, _ => none
  | fuel + 1, ts =>
    match ts with
    | [] => some (.error "Unexpected end of expression")
    | Token.number v :: rest => some (.ok (some v, rest))
    | Token.parenOpen :: rest =>
      match parseExpression fuel rest with
      | none => none
      | some (.error msg) => some (.error msg)
      | some (.ok (v, rest1)) =>
        match rest1 with
        | Token.parenClose :: rest2 => some (.ok (v, rest2))
        | _ => some (.error "Missing closing parenthesis")
    | Token.operator c :: rest =>
      if c = '-' then
        match parseFactor fuel rest with
        | none => none
        | some (.error msg) => some (.error msg)
        | some (.ok (v, rest1)) =>
          some (.ok (match v with | none => none | some n => some (jneg n), rest1))
      else some (.error "Unexpected token")
    | Token.parenClose :: _ => some (.error "Unexpected token")

end

/-- Run the parser on a token list and post-process exactly as `evaluate`
does: reject trailing tokens, then apply the `isFinite` filter (`null`
passes `isFinite` by coercion and is returned as is; `NaN` is rejected to
`null`). -/
def evalTokens (ts : List Token) : Option ℚ :=
  match parseExpression (3 * ts.length + 4) ts with
  | none => none
  | some (.error _) => none
  | some (.ok (v, rest)) =>
    if rest.isEmpty then
      match v with
      | some (some q) => some q
      | _ => none
    else none

/-- Model of `evaluate(expression, fieldValues)`: the non-string and empty
guard, the missing-dependency `null`, the `try`/`catch` normalizing thrown
errors to `null`, and the trailing-token and finiteness checks. -/
def evaluate (expression : JSValue) (fv : List (String × JSValue)) : Option ℚ :=
  match expression with
  | .str s =>
    if s = "" then none
    else
      match tokenize s fv with
      | .error _ => none
      | .ok none => none
      | .ok (some ts) => evalTokens ts
  | _ => none

/-- Abstract syntax of the expression language accepted by the parser,
after field substitution: literals carry the (possibly NaN) numeric value
their NUMBER token holds. -/
inductive AExp where
  | lit : JNum → AExp
  | neg : AExp → AExp
  | add : AExp → AExp → AExp
  | sub : AExp → AExp → AExp
  | mul : AExp → AExp → AExp
  | div : AExp → AExp → AExp
deriving DecidableEq, Repr

/-- Standard left-to-right arithmetic denotation with the calc engine's
error rules: a division whose right operand is exactly `0` yields `null`
(`none`), and `null` poisons every enclosing operation; `NaN` propagates
through the arithmetic itself. -/
def denote : AExp → JVal
  | .lit v => some v
  | .neg a =>
    match denote a with
    | none => none
    | some n => some (jneg n)
  | .add a b =>
    match denote a, denote b with
    | some x, some y => some (jadd x y)
    | _, _ => none
  | .sub a b =>
    match denote a, denote b with
    | some x, some y => some (jsub x y)
    | _, _ => none
  | .mul a b =>
    match denote a, denote b with
    | some x, some y => some (jmul x y)
    | _, _ => none
  | .div a b =>
    match denote a, denote b with
    | some x, some y => if y = some 0 then none else some (jdiv x y)
    | _, _ => none

mutual

/-- Token string of an expression printed at expression (lowest)
precedence: sums and differences are rendered without parentheses, so
parsing them exercises precedence and left associativity. -/
def tokensE : AExp → List Token
  | .add a b => tokensE a ++ Token.operator '+' :: tokensT b
  | .sub a b => tokensE a ++ Token.operator '-' :: tokensT b
  | e => tokensT e
termination_by e => (sizeOf e, 2)
decreasing_by all_goals (simp_wf; omega)

/-- Token string of an expression printed at term precedence. -/
def tokensT : AExp → List Token
  | .mul a b => tokensT a ++ Token.operator '*' :: tokensF b
  | .div a b => tokensT a ++ Token.operator '/' :: tokensF b
  | e => tokensF e
termination_by e => (sizeOf e, 1)
decreasing_by all_goals (simp_wf; omega)

/-- Token string of an expression printed at factor precedence: binary
operations are parenthesized here. -/
def tokensF : AExp → List Token
  | .lit v => [Token.number v]
  | .neg f => Token.operator '-' :: tokensF f
  | .add a b =>
    Token.parenOpen :: (tokensE a ++ Token.operator '+' :: tokensT b) ++ [Token.parenClose]
  | .sub a b =>
    Token.parenOpen :: (tokensE a ++ Token.operator '-' :: tokensT b) ++ [Token.parenClose]
  | .mul a b =>
    Token.parenOpen :: (tokensT a ++ Token.operator '*' :: tokensF b) ++ [Token.parenClose]
  | .div a b =>
    Token.parenOpen :: (tokensT a ++ Token.operator '/' :: tokensF b) ++ [Token.parenClose]
termination_by e => (sizeOf e, 0)
decreasing_by all_goals (simp_wf; omega)

end

/-- Left spine of an expression at sum level: `a - b + c` decomposes into
head `a` and operation list `[(-, b), (+, c)]`. -/
def spineE : AExp → AExp × List (Char × AExp)
  | .add a b => ((spineE a).1, (spineE a).2 ++ [('+', b)])
  | .sub a b => ((spineE a).1, (spineE a).2 ++ [('-', b)])
  | e => (e, [])

/-- Left spine of an expression at product level. -/
def spineT : AExp → AExp × List (Char × AExp)
  | .mul a b => ((spineT a).1, (spineT a).2 ++ [('*', b)])
  | .div a b => ((spineT a).1, (spineT a).2 ++ [('/', b)])
  | e => (e, [])

/-- One step of the `parseExpression` loop on denotations. -/
def stepE (acc : JVal) (p : Char × AExp) : JVal :=
  match acc, denote p.2 with
  | some l, some r => some (if p.1 = '+' then jadd l r else jsub l r)
  | _, _ => none

/-- One step of the `parseTerm` loop on denotations (with the
division-by-zero rule). -/
def stepT (acc : JVal) (p : Char × AExp) : JVal :=
  match acc, denote p.2 with
  | some l, some r =>
    if p.1 = '/' then (if r = some 0 then none else some (jdiv l r))
    else some (jmul l r)
  | _, _ => none

/-- Tokens of a sum-level operation list. -/
def opsTokensE (ops : List (Char × AExp)) : List Token :=
  (ops.map (fun p => Token.operator p.1 :: tokensT p.2)).flatten

/-- Tokens of a product-level operation list. -/
def opsTokensT (ops : List (Char × AExp)) : List Token :=
  (ops.map (fun p => Token.operator p.1 :: tokensF p.2)).flatten

/-- What a parser method must produce on `tokens of v ++ rest`: the exact
value and remainder for a non-null denotation; for a null denotation the
only guarantee (and the only one `evaluate` needs) is that no non-null
value is returned. -/
def ResultMatches (v : JVal) (rest : List Token) (r : PResult) : Prop :=
  match v with
  | some n => r = some (.ok (some n, rest))
  | none => ∀ q rest1, r ≠ some (.ok (some q, rest1))

/-- Follow condition for `parseExpression`: the loop must stop at `rest`,
so `rest` may not begin with any operator token. -/
def FollowE : List Token → Prop
  | Token.operator _ :: _ => False
  | _ => True

/-- Follow condition for `parseTerm`: `rest` may not begin with `*` or
`/`. -/
def FollowT : List Token → Prop
  | Token.operator c :: _ => ¬(c = '*' ∨ c = '/')
  | _ => True

/-- Joint correctness statement for the three parser methods on the
printed tokens of an expression, at each precedence level, for every
sufficient fuel and every allowed continuation. -/
def ParserOK (e : AExp) : Prop :=
  (∀ (rest : List Token) (fuel : Nat), 3 * (tokensF e).length + 2 ≤ fuel →
    ResultMatches (denote e) rest (parseFactor fuel (tokensF e ++ rest)))
  ∧ (∀ (rest : List Token) (fuel : Nat), FollowT rest → 3 * (tokensT e).length + 3 ≤ fuel →
    ResultMatches (denote e) rest (parseTerm fuel (tokensT e ++ rest)))
  ∧ (∀ (rest : List Token) (fuel : Nat), FollowE rest → 3 * (tokensE e).length + 4 ≤ fuel →
    ResultMatches (denote e) rest (parseExpression fuel (tokensE e ++ rest)))

theorem countsFold {α : Type} (l : List α) (sched chk : α → Bool) (a b : Nat) :
    l.foldl
      (fun acc x => if sched x then (acc.1 + 1, acc.2 + (if chk x then 1 else 0)) else acc)
      (a, b)
      = (a + (l.filter sched).length, b + (l.filter sched).countP chk) := by
  induction l generalizing a b with
  | nil => simp
  | cons x xs ih =>
    by_cases h : sched x
    · by_cases h2 : chk x
      all_goals
        simp only [List.foldl_cons, h, if_true, h2, ih, List.filter_cons, List.countP_cons,
          Prod.mk.injEq, List.length_cons, if_false]
      all_goals exact ⟨by omega, by omega⟩
    · simp [h, ih]

/-- C9: for every daily-goal state map, schema and date, the completion
rate equals (number of scheduled goals whose state is strictly `true`)
divided by (number of scheduled goals), where goals not active on the date
are excluded from both counts, and it is 0 when no goal is considered (or
the schema has no "Daily Goals" section); on a Sunday a goal scheduled
`weekdays: [1,3,5]` is excluded from numerator and denominator alike. -/
theorem computeDailyCompletion_spec :
    (∀ (dg : Option (List (String × JSValue)))
        (schema : List (String × List (String × GoalDef))) (y m d : Int),
      computeDailyCompletion dg schema y m d =
        match List.lookup "Daily Goals" schema with
        | none => (0 : ℚ)
        | some defs =>
          let considered :=
            defs.filter (fun p => isFieldScheduledForDate p.2.schedule y m d)
          if considered = [] then 0
          else
            ((considered.countP (fun p =>
                match dg with
                | none => false
                | some gs => decide (List.lookup p.1 gs = some (.bool true)))) : ℚ)
              / (considered.length : ℚ))
  ∧ computeDailyCompletion
      (some [("Run", .bool true), ("Read", .bool false)])
      [("Daily Goals",
        [("Run", ⟨some ⟨some "weekdays", some [1, 3, 5], none, none, none⟩⟩),
         ("Read", ⟨none⟩)])]
      2026 2 15 = 0
  ∧ computeDailyCompletion
      (some [("Run", .bool true), ("Read", .bool false)])
      [("Daily Goals",
        [("Run", ⟨some ⟨some "weekdays", some [1, 3, 5], none, none, none⟩⟩),
         ("Read", ⟨none⟩)])]
      2026 2 16 = 1 / 2
  ∧ computeDailyCompletion
      (some [("Run", .bool true)])
      [("Daily Goals",
        [("Run", ⟨some ⟨some "weekdays", some [], none, none, none⟩⟩)])]
      2026 2 15 = 0
  ∧ computeDailyCompletion (some [("Run", .bool true)]) [] 2026 2 15 = 0 := by
  refine ⟨?_, ?_, ?_, ?_, ?_⟩
  · intro dg schema y m d
    unfold computeDailyCompletion
    cases h : List.lookup "Daily Goals" schema with
    | none => rfl
    | some defs =>
      simp only
      rw [countsFold defs (fun p => isFieldScheduledForDate p.2.schedule y m d)]
      have hlen : ∀ l : List (String × GoalDef), (0 < l.length) ↔ ¬(l = []) := by
        intro l; cases l <;> simp
      by_cases hc : defs.filter (fun p => isFieldScheduledForDate p.2.schedule y m d) = []
      · simp [hc]
      · simp only [hc, if_false, Nat.zero_add]
        rw [if_pos ((hlen _).mpr hc)]
  · simp +decide [computeDailyCompletion]
  · simp +decide [computeDailyCompletion]
  · simp +decide [computeDailyCompletion]
  · simp +decide [computeDailyCompletion]
-- END C9

/-- C6: the per-kind behaviour of `isFieldScheduledForDate` on malformed
descriptors, for every date: weekdays without a proper `days` array is the
only fail-closed kind (false); interval with `every` missing or below 1 or
with `startDate` missing is true; dates without a proper `dates` array is
true; an absent descriptor, an absent type, type "everyday", and any
unknown type string are true. -/
theorem isFieldScheduledForDate_malformed_table :
    (∀ (y m d : Int) (sd : Option String) (ev : Option Int) (dts : Option (List String)),
      isFieldScheduledForDate (some ⟨some "weekdays", none, sd, ev, dts⟩) y m d = false)
  ∧ (∀ (y m d : Int) (ds : Option (List Int)) (sd : Option String)
        (dts : Option (List String)),
      isFieldScheduledForDate (some ⟨some "interval", ds, sd, none, dts⟩) y m d = true)
  ∧ (∀ (y m d e : Int), e < 1 →
      ∀ (ds : Option (List Int)) (sd : Option String) (dts : Option (List String)),
      isFieldScheduledForDate (some ⟨some "interval", ds, sd, some e, dts⟩) y m d = true)
  ∧ (∀ (y m d : Int) (ds : Option (List Int)) (ev : Option Int)
        (dts : Option (List String)),
      isFieldScheduledForDate (some ⟨some "interval", ds, none, ev, dts⟩) y m d = true)
  ∧ (∀ (y m d : Int) (ds : Option (List Int)) (sd : Option String) (ev : Option Int),
      isFieldScheduledForDate (some ⟨some "dates", ds, sd, ev, none⟩) y m d = true)
  ∧ (∀ y m d : Int, isFieldScheduledForDate none y m d = true)
  ∧ (∀ (y m d : Int) (ds : Option (List Int)) (sd : Option String) (ev : Option Int)
        (dts : Option (List String)),
      isFieldScheduledForDate (some ⟨none, ds, sd, ev, dts⟩) y m d = true)
  ∧ (∀ (y m d : Int) (ds : Option (List Int)) (sd : Option String) (ev : Option Int)
        (dts : Option (List String)),
      isFieldScheduledForDate (some ⟨some "everyday", ds, sd, ev, dts⟩) y m d = true)
  ∧ (∀ t : String, t ≠ "everyday" → t ≠ "weekdays" → t ≠ "interval" → t ≠ "dates" →
      ∀ (y m d : Int) (ds : Option (List Int)) (sd : Option String) (ev : Option Int)
        (dts : Option (List String)),
      isFieldScheduledForDate (some ⟨some t, ds, sd, ev, dts⟩) y m d = true) := by
  refine ⟨?_, ?_, ?_, ?_, ?_, ?_, ?_, ?_, ?_⟩
  · intro y m d sd ev dts; rfl
  · intro y m d ds sd dts; cases sd <;> rfl
  · intro y m d e h ds sd dts
    cases sd with
    | none => rfl
    | some s1 =>
      by_cases hs : s1 = "" <;>
        simp +decide [isFieldScheduledForDate, hs, h]
  · intro y m d ds ev dts; rfl
  · intro y m d ds sd ev; rfl
  · intro y m d; rfl
  · intro y m d ds sd ev dts; rfl
  · intro y m d ds sd ev dts; rfl
  · intro t h1 h2 h3 h4 y m d ds sd ev dts
    by_cases h0 : t = "" <;>
      simp [isFieldScheduledForDate, h0, h1, h2, h3, h4]

theorem isFieldScheduledForDate_malformed_table_witness :
    isFieldScheduledForDate (some ⟨some "interval", none, none, some 0, none⟩) 2026 2 15 = true
  ∧ isFieldScheduledForDate (some ⟨some "fortnightly", none, none, none, none⟩) 2026 2 15
      = true :=
  ⟨isFieldScheduledForDate_malformed_table.2.2.1 2026 2 15 0 (by decide) none none none,
   isFieldScheduledForDate_malformed_table.2.2.2.2.2.2.2.2 "fortnightly"
     (by decide) (by decide) (by decide) (by decide) 2026 2 15 none none none none⟩

/-- C7 counterexample: an interval descriptor whose `startDate` is present
but not parseable (with a usable `every`) is malformed, yet the function
returns false for it, not true — `new Date("not-a-date")` is an Invalid
Date, the NaN day difference fails the `>= 0` comparison, and the schedule
fails closed. -/
theorem isFieldScheduledForDate_unparseable_start_false :
    isFieldScheduledForDate
      (some ⟨some "interval", none, some "not-a-date", some 3, none⟩) 2026 2 15 = false := by
  decide

/-- C7 amended: an absent descriptor, an absent type, an unknown type, an
interval missing `every` (or with `every` below 1) or missing `startDate`,
and a dates descriptor missing its array all default to true (fail-open);
but the two exceptions fail closed: a weekdays descriptor with malformed
`days` returns false, and an interval descriptor whose `startDate` is
present, non-empty and unparseable (with `every` at least 1) returns
false. -/
theorem isFieldScheduledForDate_failopen_amended :
    (∀ y m d : Int, isFieldScheduledForDate none y m d = true)
  ∧ (∀ (y m d : Int) (ds : Option (List Int)) (sd : Option String)
        (dts : Option (List String)),
      isFieldScheduledForDate (some ⟨some "interval", ds, sd, none, dts⟩) y m d = true)
  ∧ (∀ (y m d : Int) (ds : Option (List Int)) (ev : Option Int)
        (dts : Option (List String)),
      isFieldScheduledForDate (some ⟨some "interval", ds, none, ev, dts⟩) y m d = true)
  ∧ (∀ (y m d : Int) (ds : Option (List Int)) (sd : Option String) (ev : Option Int),
      isFieldScheduledForDate (some ⟨some "dates", ds, sd, ev, none⟩) y m d = true)
  ∧ (∀ (y m d : Int) (sd : Option String) (ev : Option Int) (dts : Option (List String)),
      isFieldScheduledForDate (some ⟨some "weekdays", none, sd, ev, dts⟩) y m d = false)
  ∧ (∀ (sd : String), sd ≠ "" → parseDateString sd = none →
      ∀ (e : Int), 1 ≤ e →
      ∀ (y m d : Int) (ds : Option (List Int)) (dts : Option (List String)),
      isFieldScheduledForDate (some ⟨some "interval", ds, some sd, some e, dts⟩) y m d
        = false) := by
  refine ⟨fun y m d => rfl, fun y m d ds sd dts => by cases sd <;> rfl,
    fun y m d ds ev dts => rfl, fun y m d ds sd ev => rfl,
    fun y m d sd ev dts => rfl, ?_⟩
  intro sd hne hparse e he y m d ds dts
  have h3 : ¬ e < 1 := by omega
  simp +decide [isFieldScheduledForDate, hne, hparse, h3]

theorem isFieldScheduledForDate_failopen_amended_witness :
    isFieldScheduledForDate
      (some ⟨some "interval", none, some "not-a-date", some 3, none⟩) 2026 2 15 = false :=
  isFieldScheduledForDate_failopen_amended.2.2.2.2.2 "not-a-date"
    (by decide) (by decide) 3 (by decide) 2026 2 15 none none

/-- C8: for a well-formed interval schedule (parseable start date, `every`
at least 1) the predicate holds exactly when the whole-day difference
between the target date and the start date is non-negative and divisible
by `every`; every date strictly before the start date is inactive.  For
the concrete schedule starting 2026-02-01 with `every` 3, Feb 1, 4 and 7
of 2026 are active, Feb 2, Feb 3 and Jan 31 are not. -/
theorem isFieldScheduledForDate_interval_spec :
    (∀ (sd : String) (n e : Int), parseDateString sd = some n → 1 ≤ e →
      ∀ (y m d : Int) (ds : Option (List Int)) (dts : Option (List String)),
      isFieldScheduledForDate (some ⟨some "interval", ds, some sd, some e, dts⟩) y m d
        = (decide (0 ≤ jsDateLocal y m d - n) && decide ((jsDateLocal y m d - n) % e = 0)))
  ∧ (∀ (sd : String) (n e : Int), parseDateString sd = some n → 1 ≤ e →
      ∀ (y m d : Int) (ds : Option (List Int)) (dts : Option (List String)),
      jsDateLocal y m d < n →
      isFieldScheduledForDate (some ⟨some "interval", ds, some sd, some e, dts⟩) y m d
        = false)
  ∧ isFieldScheduledForDate
      (some ⟨some "interval", none, some "2026-02-01", some 3, none⟩) 2026 2 1 = true
  ∧ isFieldScheduledForDate
      (some ⟨some "interval", none, some "2026-02-01", some 3, none⟩) 2026 2 4 = true
  ∧ isFieldScheduledForDate
      (some ⟨some "interval", none, some "2026-02-01", some 3, none⟩) 2026 2 7 = true
  ∧ isFieldScheduledForDate
      (some ⟨some "interval", none, some "2026-02-01", some 3, none⟩) 2026 2 2 = false
  ∧ isFieldScheduledForDate
      (some ⟨some "interval", none, some "2026-02-01", some 3, none⟩) 2026 2 3 = false
  ∧ isFieldScheduledForDate
      (some ⟨some "interval", none, some "2026-02-01", some 3, none⟩) 2026 1 31 = false := by
  have key : ∀ (sd : String) (n e : Int), parseDateString sd = some n → 1 ≤ e →
      ∀ (y m d : Int) (ds : Option (List Int)) (dts : Option (List String)),
      isFieldScheduledForDate (some ⟨some "interval", ds, some sd, some e, dts⟩) y m d
        = (decide (0 ≤ jsDateLocal y m d - n) && decide ((jsDateLocal y m d - n) % e = 0)) := by
    intro sd n e hparse he y m d ds dts
    have hemp : parseDateString "" = none := by decide
    have hne : sd ≠ "" := by
      intro h0
      rw [h0, hemp] at hparse
      exact Option.noConfusion hparse
    have h3 : ¬ e < 1 := by omega
    simp +decide [isFieldScheduledForDate, hne, hparse, h3]
  refine ⟨key, ?_, by decide, by decide, by decide, by decide, by decide, by decide⟩
  intro sd n e hparse he y m d ds dts hlt
  rw [key sd n e hparse he y m d ds dts]
  have h0 : decide (0 ≤ jsDateLocal y m d - n) = false := by
    simp only [decide_eq_false_iff_not]
    omega
  rw [h0, Bool.false_and]

theorem isFieldScheduledForDate_interval_spec_witness :
    isFieldScheduledForDate
      (some ⟨some "interval", none, some "2026-02-01", some 3, none⟩) 2026 2 10
      = (decide (0 ≤ jsDateLocal 2026 2 10 - 20485)
          && decide ((jsDateLocal 2026 2 10 - 20485) % 3 = 0))
  ∧ isFieldScheduledForDate
      (some ⟨some "interval", none, some "2026-02-01", some 3, none⟩) 2025 12 25 = false :=
  ⟨isFieldScheduledForDate_interval_spec.1 "2026-02-01" 20485 3 (by decide) (by decide)
      2026 2 10 none none,
   isFieldScheduledForDate_interval_spec.2.1 "2026-02-01" 20485 3 (by decide) (by decide)
      2025 12 25 none none (by decide)⟩

theorem foldl_stepT_none (ops : List (Char × AExp)) : ops.foldl stepT none = none := by
  induction ops with
  | nil => rfl
  | cons p ops ih => simp only [List.foldl_cons, stepT, ih]

theorem foldl_stepE_none (ops : List (Char × AExp)) : ops.foldl stepE none = none := by
  induction ops with
  | nil => rfl
  | cons p ops ih => simp only [List.foldl_cons, stepE, ih]

theorem followT_of_followE {rest : List Token} (h : FollowE rest) : FollowT rest := by
  cases rest with
  | nil => trivial
  | cons t ts =>
    cases t with
    | operator c => exact absurd h (by simp [FollowE])
    | number v => trivial
    | parenOpen => trivial
    | parenClose => trivial

theorem followT_opsE {ops : List (Char × AExp)} {rest : List Token}
    (hc : ∀ p ∈ ops, p.1 = '+' ∨ p.1 = '-') (h : FollowE rest) :
    FollowT (opsTokensE ops ++ rest) := by
  cases ops with
  | nil => exact followT_of_followE h
  | cons p ops =>
    have hp := hc p (by simp)
    show FollowT ((Token.operator p.1 :: tokensT p.2 ++ opsTokensE ops) ++ rest)
    rcases hp with hp | hp <;> simp [FollowT, hp]

theorem loopTerm_null (fuel : Nat) (ts : List Token) :
    ∀ (q : JNum) (rest1 : List Token), loopTerm fuel none ts ≠ some (.ok (some q, rest1)) := by
  intro q rest1
  cases fuel with
  | zero => simp [loopTerm]
  | succ f =>
    cases ts with
    | nil => simp [loopTerm]
    | cons t ts2 =>
      cases t with
      | operator c =>
        by_cases hc : c = '*' ∨ c = '/'
        · simp only [loopTerm, if_pos hc]
          cases parseFactor f ts2 with
          | none => simp
          | some ex =>
            cases ex with
            | error m => simp
            | ok vp => simp
        · simp [loopTerm, hc]
      | number v => simp [loopTerm]
      | parenOpen => simp [loopTerm]
      | parenClose => simp [loopTerm]

theorem loopExpr_null (fuel : Nat) (ts : List Token) :
    ∀ (q : JNum) (rest1 : List Token), loopExpr fuel none ts ≠ some (.ok (some q, rest1)) := by
  intro q rest1
  cases fuel with
  | zero => simp [loopExpr]
  | succ f =>
    cases ts with
    | nil => simp [loopExpr]
    | cons t ts2 =>
      cases t with
      | operator c =>
        by_cases hc : c = '+' ∨ c = '-'
        · simp only [loopExpr, if_pos hc]
          cases parseTerm f ts2 with
          | none => simp
          | some ex =>
            cases ex with
            | error m => simp
            | ok vp => simp
        · simp [loopExpr, hc]
      | number v => simp [loopExpr]
      | parenOpen => simp [loopExpr]
      | parenClose => simp [loopExpr]

theorem spineT_tokens (e : AExp) :
    tokensT e = tokensF (spineT e).1 ++ opsTokensT (spineT e).2 := by
  induction e with
  | mul a b iha ihb =>
    simp only [tokensT, spineT, opsTokensT, List.map_append, List.flatten_append, iha]
    simp [opsTokensT, List.append_assoc]
  | div a b iha ihb =>
    simp only [tokensT, spineT, opsTokensT, List.map_append, List.flatten_append, iha]
    simp [opsTokensT, List.append_assoc]
  | lit v => simp [tokensT, spineT, opsTokensT]
  | neg f ih => simp [tokensT, spineT, opsTokensT]
  | add a b iha ihb => simp [tokensT, spineT, opsTokensT]
  | sub a b iha ihb => simp [tokensT, spineT, opsTokensT]

theorem spineE_tokens (e : AExp) :
    tokensE e = tokensT (spineE e).1 ++ opsTokensE (spineE e).2 := by
  induction e with
  | add a b iha ihb =>
    simp only [tokensE, spineE, opsTokensE, List.map_append, List.flatten_append, iha]
    simp [opsTokensE, List.append_assoc]
  | sub a b iha ihb =>
    simp only [tokensE, spineE, opsTokensE, List.map_append, List.flatten_append, iha]
    simp [opsTokensE, List.append_assoc]
  | lit v => simp [tokensE, spineE, opsTokensE]
  | neg f ih => simp [tokensE, spineE, opsTokensE]
  | mul a b iha ihb => simp [tokensE, spineE, opsTokensE]
  | div a b iha ihb => simp [tokensE, spineE, opsTokensE]

theorem spineT_denote (e : AExp) :
    denote e = (spineT e).2.foldl stepT (denote (spineT e).1) := by
  induction e with
  | mul a b iha ihb =>
    simp only [spineT, List.foldl_append, List.foldl_cons, List.foldl_nil, ← iha]
    cases ha : denote a <;> cases hb : denote b <;> simp [denote, ha, hb, stepT]
  | div a b iha ihb =>
    simp only [spineT, List.foldl_append, List.foldl_cons, List.foldl_nil, ← iha]
    cases ha : denote a <;> cases hb : denote b <;> simp [denote, ha, hb, stepT]
  | lit v => simp [spineT]
  | neg f ih => simp [spineT]
  | add a b iha ihb => simp [spineT]
  | sub a b iha ihb => simp [spineT]

theorem spineE_denote (e : AExp) :
    denote e = (spineE e).2.foldl stepE (denote (spineE e).1) := by
  induction e with
  | add a b iha ihb =>
    simp only [spineE, List.foldl_append, List.foldl_cons, List.foldl_nil, ← iha]
    cases ha : denote a <;> cases hb : denote b <;> simp [denote, ha, hb, stepE]
  | sub a b iha ihb =>
    simp only [spineE, List.foldl_append, List.foldl_cons, List.foldl_nil, ← iha]
    cases ha : denote a <;> cases hb : denote b <;> simp [denote, ha, hb, stepE]
  | lit v => simp [spineE]
  | neg f ih => simp [spineE]
  | mul a b iha ihb => simp [spineE]
  | div a b iha ihb => simp [spineE]

theorem spineT_chars (e : AExp) :
    ∀ p ∈ (spineT e).2, p.1 = '*' ∨ p.1 = '/' := by
  induction e with
  | mul a b iha ihb =>
    intro p hp
    simp only [spineT, List.mem_append, List.mem_singleton] at hp
    rcases hp with hp | hp
    · exact iha p hp
    · subst hp; left; rfl
  | div a b iha ihb =>
    intro p hp
    simp only [spineT, List.mem_append, List.mem_singleton] at hp
    rcases hp with hp | hp
    · exact iha p hp
    · subst hp; right; rfl
  | lit v => intro p hp; simp [spineT] at hp
  | neg f ih => intro p hp; simp [spineT] at hp
  | add a b iha ihb => intro p hp; simp [spineT] at hp
  | sub a b iha ihb => intro p hp; simp [spineT] at hp

theorem spineE_chars (e : AExp) :
    ∀ p ∈ (spineE e).2, p.1 = '+' ∨ p.1 = '-' := by
  induction e with
  | add a b iha ihb =>
    intro p hp
    simp only [spineE, List.mem_append, List.mem_singleton] at hp
    rcases hp with hp | hp
    · exact iha p hp
    · subst hp; left; rfl
  | sub a b iha ihb =>
    intro p hp
    simp only [spineE, List.mem_append, List.mem_singleton] at hp
    rcases hp with hp | hp
    · exact iha p hp
    · subst hp; right; rfl
  | lit v => intro p hp; simp [spineE] at hp
  | neg f ih => intro p hp; simp [spineE] at hp
  | mul a b iha ihb => intro p hp; simp [spineE] at hp
  | div a b iha ihb => intro p hp; simp [spineE] at hp

theorem spineT_size (e : AExp) :
    sizeOf (spineT e).1 ≤ sizeOf e ∧ ∀ p ∈ (spineT e).2, sizeOf p.2 < sizeOf e := by
  induction e with
  | mul a b iha ihb =>
    constructor
    · have := iha.1
      simp only [spineT]
      simp only [AExp.mul.sizeOf_spec]
      omega
    · intro p hp
      simp only [spineT, List.mem_append, List.mem_singleton] at hp
      simp only [AExp.mul.sizeOf_spec]
      rcases hp with hp | hp
      · have := iha.2 p hp; omega
      · subst hp; simp
  | div a b iha ihb =>
    constructor
    · have := iha.1
      simp only [spineT]
      simp only [AExp.div.sizeOf_spec]
      omega
    · intro p hp
      simp only [spineT, List.mem_append, List.mem_singleton] at hp
      simp only [AExp.div.sizeOf_spec]
      rcases hp with hp | hp
      · have := iha.2 p hp; omega
      · subst hp; simp
  | lit v => exact ⟨le_rfl, by intro p hp; simp [spineT] at hp⟩
  | neg f ih => exact ⟨le_rfl, by intro p hp; simp [spineT] at hp⟩
  | add a b iha ihb => exact ⟨le_rfl, by intro p hp; simp [spineT] at hp⟩
  | sub a b iha ihb => exact ⟨le_rfl, by intro p hp; simp [spineT] at hp⟩

theorem spineE_size (e : AExp) :
    sizeOf (spineE e).1 ≤ sizeOf e ∧ ∀ p ∈ (spineE e).2, sizeOf p.2 < sizeOf e := by
  induction e with
  | add a b iha ihb =>
    constructor
    · have := iha.1
      simp only [spineE]
      simp only [AExp.add.sizeOf_spec]
      omega
    · intro p hp
      simp only [spineE, List.mem_append, List.mem_singleton] at hp
      simp only [AExp.add.sizeOf_spec]
      rcases hp with hp | hp
      · have := iha.2 p hp; omega
      · subst hp; simp
  | sub a b iha ihb =>
    constructor
    · have := iha.1
      simp only [spineE]
      simp only [AExp.sub.sizeOf_spec]
      omega
    · intro p hp
      simp only [spineE, List.mem_append, List.mem_singleton] at hp
      simp only [AExp.sub.sizeOf_spec]
      rcases hp with hp | hp
      · have := iha.2 p hp; omega
      · subst hp; simp
  | lit v => exact ⟨le_rfl, by intro p hp; simp [spineE] at hp⟩
  | neg f ih => exact ⟨le_rfl, by intro p hp; simp [spineE] at hp⟩
  | mul a b iha ihb => exact ⟨le_rfl, by intro p hp; simp [spineE] at hp⟩
  | div a b iha ihb => exact ⟨le_rfl, by intro p hp; simp [spineE] at hp⟩

theorem opsTokensT_cons (c : Char) (t : AExp) (ops : List (Char × AExp)) :
    opsTokensT ((c, t) :: ops) = Token.operator c :: (tokensF t ++ opsTokensT ops) := by
  simp [opsTokensT]

theorem opsTokensE_cons (c : Char) (t : AExp) (ops : List (Char × AExp)) :
    opsTokensE ((c, t) :: ops) = Token.operator c :: (tokensT t ++ opsTokensE ops) := by
  simp [opsTokensE]

theorem loopTerm_stop (l : JNum) (rest : List Token) (f : Nat) (hf : FollowT rest) :
    loopTerm (f + 1) (some l) rest = some (.ok (some l, rest)) := by
  cases rest with
  | nil => rfl
  | cons t ts =>
    cases t with
    | operator c =>
      have hc : ¬(c = '*' ∨ c = '/') := hf
      simp [loopTerm, hc]
    | number v => rfl
    | parenOpen => rfl
    | parenClose => rfl

theorem loopExpr_stop (l : JNum) (rest : List Token) (f : Nat) (hf : FollowE rest) :
    loopExpr (f + 1) (some l) rest = some (.ok (some l, rest)) := by
  cases rest with
  | nil => rfl
  | cons t ts =>
    cases t with
    | operator c => exact absurd hf (by simp [FollowE])
    | number v => rfl
    | parenOpen => rfl
    | parenClose => rfl

theorem loopTerm_spec (ops : List (Char × AExp)) :
    ∀ (l : JNum) (rest : List Token) (fuel : Nat),
    (∀ p ∈ ops, p.1 = '*' ∨ p.1 = '/') →
    (∀ p ∈ ops, ∀ (rest1 : List Token) (fuel1 : Nat),
        3 * (tokensF p.2).length + 2 ≤ fuel1 →
        ResultMatches (denote p.2) rest1 (parseFactor fuel1 (tokensF p.2 ++ rest1))) →
    FollowT rest →
    3 * (opsTokensT ops).length + 2 ≤ fuel →
    ResultMatches (ops.foldl stepT (some l)) rest
      (loopTerm fuel (some l) (opsTokensT ops ++ rest)) := by
  induction ops with
  | nil =>
    intro l rest fuel hchars hfac hfollow hfuel
    obtain ⟨f, rfl⟩ : ∃ f, fuel = f + 1 := ⟨fuel - 1, by omega⟩
    show ResultMatches (some l) rest (loopTerm (f + 1) (some l) ([] ++ rest))
    rw [List.nil_append, loopTerm_stop l rest f hfollow]
    rfl
  | cons p ops ih =>
    intro l rest fuel hchars hfac hfollow hfuel
    obtain ⟨c, t⟩ := p
    have hchars0 : ∀ p ∈ ops, p.1 = '*' ∨ p.1 = '/' :=
      fun p hp => hchars p (List.mem_cons_of_mem _ hp)
    have hfac0 : ∀ p ∈ ops, ∀ (rest1 : List Token) (fuel1 : Nat),
        3 * (tokensF p.2).length + 2 ≤ fuel1 →
        ResultMatches (denote p.2) rest1 (parseFactor fuel1 (tokensF p.2 ++ rest1)) :=
      fun p hp => hfac p (List.mem_cons_of_mem _ hp)
    have hlen : (opsTokensT ((c, t) :: ops)).length
        = 1 + (tokensF t).length + (opsTokensT ops).length := by
      simp [opsTokensT_cons]; omega
    obtain ⟨f, rfl⟩ : ∃ f, fuel = f + 1 := ⟨fuel - 1, by omega⟩
    have hc : c = '*' ∨ c = '/' := hchars (c, t) (by simp)
    have hf : ResultMatches (denote t) (opsTokensT ops ++ rest)
        (parseFactor f (tokensF t ++ (opsTokensT ops ++ rest))) :=
      hfac (c, t) (by simp) (opsTokensT ops ++ rest) f
        (by show 3 * (tokensF t).length + 2 ≤ f; omega)
    rw [opsTokensT_cons]
    simp only [List.cons_append, List.append_assoc]
    show ResultMatches _ rest
      (loopTerm (f + 1) (some l) (Token.operator c :: (tokensF t ++ (opsTokensT ops ++ rest))))
    simp only [loopTerm, if_pos hc]
    cases hd : denote t with
    | some r =>
      rw [hd] at hf
      have hfeq : parseFactor f (tokensF t ++ (opsTokensT ops ++ rest))
          = some (.ok (some r, opsTokensT ops ++ rest)) := hf
      rw [hfeq]
      simp only [List.foldl_cons]
      have hstep : stepT (some l) (c, t) =
          (if c = '/' then (if r = some 0 then none else some (jdiv l r))
           else some (jmul l r)) := by
        simp [stepT, hd]
      by_cases hdiv : c = '/'
      · by_cases hz : r = some 0
        · rw [hstep, if_pos hdiv, if_pos hz]
          simp only [if_pos hdiv, if_pos hz]
          rw [foldl_stepT_none]
          intro q rest1
          simp
        · rw [hstep, if_pos hdiv, if_neg hz]
          simp only [if_pos hdiv, if_neg hz]
          exact ih (jdiv l r) rest f hchars0 hfac0 hfollow (by omega)
      · rw [hstep, if_neg hdiv]
        simp only [if_neg hdiv]
        exact ih (jmul l r) rest f hchars0 hfac0 hfollow (by omega)
    | none =>
      rw [hd] at hf
      have habs : ∀ (q : JNum) (rest1 : List Token),
          parseFactor f (tokensF t ++ (opsTokensT ops ++ rest))
            ≠ some (.ok (some q, rest1)) := hf
      simp only [List.foldl_cons]
      have hstep : stepT (some l) (c, t) = none := by simp [stepT, hd]
      rw [hstep, foldl_stepT_none]
      cases hpf : parseFactor f (tokensF t ++ (opsTokensT ops ++ rest)) with
      | none => intro q rest1; simp
      | some ex =>
        cases ex with
        | error m => intro q rest1; simp
        | ok vp =>
          obtain ⟨v1, rest1⟩ := vp
          cases v1 with
          | some n => exact absurd hpf (habs n rest1)
          | none => intro q rest2; simp

theorem loopExpr_spec (ops : List (Char × AExp)) :
    ∀ (l : JNum) (rest : List Token) (fuel : Nat),
    (∀ p ∈ ops, p.1 = '+' ∨ p.1 = '-') →
    (∀ p ∈ ops, ∀ (rest1 : List Token) (fuel1 : Nat), FollowT rest1 →
        3 * (tokensT p.2).length + 3 ≤ fuel1 →
        ResultMatches (denote p.2) rest1 (parseTerm fuel1 (tokensT p.2 ++ rest1))) →
    FollowE rest →
    3 * (opsTokensE ops).length + 3 ≤ fuel →
    ResultMatches (ops.foldl stepE (some l)) rest
      (loopExpr fuel (some l) (opsTokensE ops ++ rest)) := by
  induction ops with
  | nil =>
    intro l rest fuel hchars hterm hfollow hfuel
    obtain ⟨f, rfl⟩ : ∃ f, fuel = f + 1 := ⟨fuel - 1, by omega⟩
    show ResultMatches (some l) rest (loopExpr (f + 1) (some l) ([] ++ rest))
    rw [List.nil_append, loopExpr_stop l rest f hfollow]
    rfl
  | cons p ops ih =>
    intro l rest fuel hchars hterm hfollow hfuel
    obtain ⟨c, t⟩ := p
    have hchars0 : ∀ p ∈ ops, p.1 = '+' ∨ p.1 = '-' :=
      fun p hp => hchars p (List.mem_cons_of_mem _ hp)
    have hterm0 : ∀ p ∈ ops, ∀ (rest1 : List Token) (fuel1 : Nat), FollowT rest1 →
        3 * (tokensT p.2).length + 3 ≤ fuel1 →
        ResultMatches (denote p.2) rest1 (parseTerm fuel1 (tokensT p.2 ++ rest1)) :=
      fun p hp => hterm p (List.mem_cons_of_mem _ hp)
    have hlen : (opsTokensE ((c, t) :: ops)).length
        = 1 + (tokensT t).length + (opsTokensE ops).length := by
      simp [opsTokensE_cons]; omega
    obtain ⟨f, rfl⟩ : ∃ f, fuel = f + 1 := ⟨fuel - 1, by omega⟩
    have hc : c = '+' ∨ c = '-' := hchars (c, t) (by simp)
    have hf : ResultMatches (denote t) (opsTokensE ops ++ rest)
        (parseTerm f (tokensT t ++ (opsTokensE ops ++ rest))) :=
      hterm (c, t) (by simp) (opsTokensE ops ++ rest) f
        (followT_opsE hchars0 hfollow)
        (by show 3 * (tokensT t).length + 3 ≤ f; omega)
    rw [opsTokensE_cons]
    simp only [List.cons_append, List.append_assoc]
    show ResultMatches _ rest
      (loopExpr (f + 1) (some l) (Token.operator c :: (tokensT t ++ (opsTokensE ops ++ rest))))
    simp only [loopExpr, if_pos hc]
    cases hd : denote t with
    | some r =>
      rw [hd] at hf
      have hfeq : parseTerm f (tokensT t ++ (opsTokensE ops ++ rest))
          = some (.ok (some r, opsTokensE ops ++ rest)) := hf
      rw [hfeq]
      simp only [List.foldl_cons]
      have hstep : stepE (some l) (c, t) =
          some (if c = '+' then jadd l r else jsub l r) := by
        simp [stepE, hd]
      rw [hstep]
      exact ih (if c = '+' then jadd l r else jsub l r) rest f hchars0 hterm0 hfollow (by omega)
    | none =>
      rw [hd] at hf
      have habs : ∀ (q : JNum) (rest1 : List Token),
          parseTerm f (tokensT t ++ (opsTokensE ops ++ rest))
            ≠ some (.ok (some q, rest1)) := hf
      simp only [List.foldl_cons]
      have hstep : stepE (some l) (c, t) = none := by simp [stepE, hd]
      rw [hstep, foldl_stepE_none]
      cases hpf : parseTerm f (tokensT t ++ (opsTokensE ops ++ rest)) with
      | none => intro q rest1; simp
      | some ex =>
        cases ex with
        | error m => intro q rest1; simp
        | ok vp =>
          obtain ⟨v1, rest1⟩ := vp
          cases v1 with
          | some n => exact absurd hpf (habs n rest1)
          | none => intro q rest2; simp

theorem parseTerm_of_spine (e : AExp)
    (hh : ∀ (rest : List Token) (fuel : Nat),
        3 * (tokensF (spineT e).1).length + 2 ≤ fuel →
        ResultMatches (denote (spineT e).1) rest
          (parseFactor fuel (tokensF (spineT e).1 ++ rest)))
    (hops : ∀ p ∈ (spineT e).2, ∀ (rest1 : List Token) (fuel1 : Nat),
        3 * (tokensF p.2).length + 2 ≤ fuel1 →
        ResultMatches (denote p.2) rest1 (parseFactor fuel1 (tokensF p.2 ++ rest1))) :
    ∀ (rest : List Token) (fuel : Nat), FollowT rest →
    3 * (tokensT e).length + 3 ≤ fuel →
    ResultMatches (denote e) rest (parseTerm fuel (tokensT e ++ rest)) := by
  intro rest fuel hfollow hfuel
  have hlen : (tokensT e).length
      = (tokensF (spineT e).1).length + (opsTokensT (spineT e).2).length := by
    rw [spineT_tokens e]; simp
  obtain ⟨f, rfl⟩ : ∃ f, fuel = f + 1 := ⟨fuel - 1, by omega⟩
  rw [spineT_tokens e, List.append_assoc]
  show ResultMatches (denote e) rest
    (parseTerm (f + 1) (tokensF (spineT e).1 ++ (opsTokensT (spineT e).2 ++ rest)))
  simp only [parseTerm]
  have hF := hh (opsTokensT (spineT e).2 ++ rest) f (by omega)
  rw [spineT_denote e]
  cases hd : denote (spineT e).1 with
  | some v =>
    rw [hd] at hF
    have hfeq : parseFactor f (tokensF (spineT e).1 ++ (opsTokensT (spineT e).2 ++ rest))
        = some (.ok (some v, opsTokensT (spineT e).2 ++ rest)) := hF
    rw [hfeq]
    exact loopTerm_spec (spineT e).2 v rest f (spineT_chars e) hops hfollow (by omega)
  | none =>
    rw [hd] at hF
    have habs : ∀ (q : JNum) (rest1 : List Token),
        parseFactor f (tokensF (spineT e).1 ++ (opsTokensT (spineT e).2 ++ rest))
          ≠ some (.ok (some q, rest1)) := hF
    rw [foldl_stepT_none]
    cases hpf : parseFactor f (tokensF (spineT e).1 ++ (opsTokensT (spineT e).2 ++ rest)) with
    | none => intro q rest1; simp
    | some ex =>
      cases ex with
      | error m => intro q rest1; simp
      | ok vp =>
        obtain ⟨v1, rest1⟩ := vp
        cases v1 with
        | some n => exact absurd hpf (habs n rest1)
        | none =>
          intro q rest2
          simp only
          exact loopTerm_null f rest1 q rest2

theorem parseExpr_of_spine (e : AExp)
    (hh : ∀ (rest : List Token) (fuel : Nat), FollowT rest →
        3 * (tokensT (spineE e).1).length + 3 ≤ fuel →
        ResultMatches (denote (spineE e).1) rest
          (parseTerm fuel (tokensT (spineE e).1 ++ rest)))
    (hops : ∀ p ∈ (spineE e).2, ∀ (rest1 : List Token) (fuel1 : Nat), FollowT rest1 →
        3 * (tokensT p.2).length + 3 ≤ fuel1 →
        ResultMatches (denote p.2) rest1 (parseTerm fuel1 (tokensT p.2 ++ rest1))) :
    ∀ (rest : List Token) (fuel : Nat), FollowE rest →
    3 * (tokensE e).length + 4 ≤ fuel →
    ResultMatches (denote e) rest (parseExpression fuel (tokensE e ++ rest)) := by
  intro rest fuel hfollow hfuel
  have hlen : (tokensE e).length
      = (tokensT (spineE e).1).length + (opsTokensE (spineE e).2).length := by
    rw [spineE_tokens e]; simp
  obtain ⟨f, rfl⟩ : ∃ f, fuel = f + 1 := ⟨fuel - 1, by omega⟩
  rw [spineE_tokens e, List.append_assoc]
  show ResultMatches (denote e) rest
    (parseExpression (f + 1) (tokensT (spineE e).1 ++ (opsTokensE (spineE e).2 ++ rest)))
  simp only [parseExpression]
  have hF := hh (opsTokensE (spineE e).2 ++ rest) f
    (followT_opsE (spineE_chars e) hfollow) (by omega)
  rw [spineE_denote e]
  cases hd : denote (spineE e).1 with
  | some v =>
    rw [hd] at hF
    have hfeq : parseTerm f (tokensT (spineE e).1 ++ (opsTokensE (spineE e).2 ++ rest))
        = some (.ok (some v, opsTokensE (spineE e).2 ++ rest)) := hF
    rw [hfeq]
    exact loopExpr_spec (spineE e).2 v rest f (spineE_chars e) hops hfollow (by omega)
  | none =>
    rw [hd] at hF
    have habs : ∀ (q : JNum) (rest1 : List Token),
        parseTerm f (tokensT (spineE e).1 ++ (opsTokensE (spineE e).2 ++ rest))
          ≠ some (.ok (some q, rest1)) := hF
    rw [foldl_stepE_none]
    cases hpf : parseTerm f (tokensT (spineE e).1 ++ (opsTokensE (spineE e).2 ++ rest)) with
    | none => intro q rest1; simp
    | some ex =>
      cases ex with
      | error m => intro q rest1; simp
      | ok vp =>
        obtain ⟨v1, rest1⟩ := vp
        cases v1 with
        | some n => exact absurd hpf (habs n rest1)
        | none =>
          intro q rest2
          simp only
          exact loopExpr_null f rest1 q rest2

theorem parseFactor_lit (v : JNum) :
    ∀ (rest : List Token) (fuel : Nat), 3 * (tokensF (.lit v)).length + 2 ≤ fuel →
    ResultMatches (denote (.lit v)) rest (parseFactor fuel (tokensF (.lit v) ++ rest)) := by
  intro rest fuel hfuel
  obtain ⟨f, rfl⟩ : ∃ f, fuel = f + 1 := ⟨fuel - 1, by omega⟩
  have ht : tokensF (.lit v) ++ rest = Token.number v :: rest := by simp [tokensF]
  rw [ht]
  rfl

theorem parseFactor_neg (f0 : AExp)
    (ihf : ∀ (rest : List Token) (fuel : Nat), 3 * (tokensF f0).length + 2 ≤ fuel →
        ResultMatches (denote f0) rest (parseFactor fuel (tokensF f0 ++ rest))) :
    ∀ (rest : List Token) (fuel : Nat), 3 * (tokensF (.neg f0)).length + 2 ≤ fuel →
    ResultMatches (denote (.neg f0)) rest (parseFactor fuel (tokensF (.neg f0) ++ rest)) := by
  intro rest fuel hfuel
  have hlen : (tokensF (.neg f0)).length = 1 + (tokensF f0).length := by
    simp [tokensF]; omega
  obtain ⟨f, rfl⟩ : ∃ f, fuel = f + 1 := ⟨fuel - 1, by omega⟩
  have ht : tokensF (.neg f0) ++ rest = Token.operator '-' :: (tokensF f0 ++ rest) := by
    simp [tokensF]
  rw [ht]
  have hF := ihf rest f (by omega)
  simp only [parseFactor, if_pos rfl]
  cases hd : denote f0 with
  | some n =>
    rw [hd] at hF
    have hfeq : parseFactor f (tokensF f0 ++ rest) = some (.ok (some n, rest)) := hF
    rw [hfeq]
    have hden : denote (.neg f0) = some (jneg n) := by simp [denote, hd]
    rw [hden]
    rfl
  | none =>
    rw [hd] at hF
    have habs : ∀ (q : JNum) (rest1 : List Token),
        parseFactor f (tokensF f0 ++ rest) ≠ some (.ok (some q, rest1)) := hF
    have hden : denote (.neg f0) = none := by simp [denote, hd]
    rw [hden]
    cases hpf : parseFactor f (tokensF f0 ++ rest) with
    | none => intro q rest1; simp
    | some ex =>
      cases ex with
      | error m => intro q rest1; simp
      | ok vp =>
        obtain ⟨v1, rest1⟩ := vp
        cases v1 with
        | some n => exact absurd hpf (habs n rest1)
        | none => intro q rest2; simp

theorem parseFactor_paren (e : AExp)
    (hwrap : tokensF e = Token.parenOpen :: tokensE e ++ [Token.parenClose])
    (he : ∀ (rest : List Token) (fuel : Nat), FollowE rest →
        3 * (tokensE e).length + 4 ≤ fuel →
        ResultMatches (denote e) rest (parseExpression fuel (tokensE e ++ rest))) :
    ∀ (rest : List Token) (fuel : Nat), 3 * (tokensF e).length + 2 ≤ fuel →
    ResultMatches (denote e) rest (parseFactor fuel (tokensF e ++ rest)) := by
  intro rest fuel hfuel
  have hlen : (tokensF e).length = (tokensE e).length + 2 := by
    rw [hwrap]; simp
  obtain ⟨f, rfl⟩ : ∃ f, fuel = f + 1 := ⟨fuel - 1, by omega⟩
  have ht : tokensF e ++ rest
      = Token.parenOpen :: (tokensE e ++ (Token.parenClose :: rest)) := by
    rw [hwrap]; simp
  rw [ht]
  have hE := he (Token.parenClose :: rest) f (by trivial) (by omega)
  simp only [parseFactor]
  cases hd : denote e with
  | some v =>
    rw [hd] at hE
    have hfeq : parseExpression f (tokensE e ++ (Token.parenClose :: rest))
        = some (.ok (some v, Token.parenClose :: rest)) := hE
    rw [hfeq]
    rfl
  | none =>
    rw [hd] at hE
    have habs : ∀ (q : JNum) (rest1 : List Token),
        parseExpression f (tokensE e ++ (Token.parenClose :: rest))
          ≠ some (.ok (some q, rest1)) := hE
    cases hpf : parseExpression f (tokensE e ++ (Token.parenClose :: rest)) with
    | none => intro q rest1; simp
    | some ex =>
      cases ex with
      | error m => intro q rest1; simp
      | ok vp =>
        obtain ⟨v1, rest1⟩ := vp
        cases v1 with
        | some n => exact absurd hpf (habs n rest1)
        | none =>
          cases rest1 with
          | nil => intro q rest2; simp
          | cons t rest2 =>
            cases t with
            | parenClose => intro q rest3; simp
            | number w => intro q rest3; simp
            | operator c => intro q rest3; simp
            | parenOpen => intro q rest3; simp

theorem tokensF_wrap_add (a b : AExp) :
    tokensF (.add a b) = Token.parenOpen :: tokensE (.add a b) ++ [Token.parenClose] := by
  simp [tokensF, tokensE]

theorem tokensF_wrap_sub (a b : AExp) :
    tokensF (.sub a b) = Token.parenOpen :: tokensE (.sub a b) ++ [Token.parenClose] := by
  simp [tokensF, tokensE]

theorem tokensF_wrap_mul (a b : AExp) :
    tokensF (.mul a b) = Token.parenOpen :: tokensE (.mul a b) ++ [Token.parenClose] := by
  simp [tokensF, tokensE, tokensT]

theorem tokensF_wrap_div (a b : AExp) :
    tokensF (.div a b) = Token.parenOpen :: tokensE (.div a b) ++ [Token.parenClose] := by
  simp [tokensF, tokensE, tokensT]

theorem parser_correct_aux : ∀ (N : Nat) (e : AExp), sizeOf e ≤ N → ParserOK e := by
  intro N
  induction N with
  | zero =>
    intro e he
    exfalso
    cases e <;> simp at he
  | succ N ihN =>
    intro e he
    cases e with
    | lit v =>
      have hF := parseFactor_lit v
      have hT := parseTerm_of_spine (.lit v) hF (by intro p hp; simp [spineT] at hp)
      have hE := parseExpr_of_spine (.lit v) hT (by intro p hp; simp [spineE] at hp)
      exact ⟨hF, hT, hE⟩
    | neg f =>
      have hs : sizeOf f ≤ N := by
        have h1 : sizeOf (AExp.neg f) = 1 + sizeOf f := by simp
        omega
      have hF := parseFactor_neg f (ihN f hs).1
      have hT := parseTerm_of_spine (.neg f) hF (by intro p hp; simp [spineT] at hp)
      have hE := parseExpr_of_spine (.neg f) hT (by intro p hp; simp [spineE] at hp)
      exact ⟨hF, hT, hE⟩
    | add a b =>
      have hsz : sizeOf (AExp.add a b) = 1 + sizeOf a + sizeOf b := by simp
      have hhead : sizeOf (spineE (AExp.add a b)).1 ≤ N := by
        have h1 : (spineE (AExp.add a b)).1 = (spineE a).1 := by simp [spineE]
        have h2 := (spineE_size a).1
        rw [h1]; omega
      have hcomp : ∀ p ∈ (spineE (AExp.add a b)).2, sizeOf p.2 ≤ N := by
        intro p hp
        have h2 := (spineE_size (AExp.add a b)).2 p hp
        omega
      have hE := parseExpr_of_spine (AExp.add a b)
        ((ihN _ hhead).2.1)
        (fun p hp => (ihN p.2 (hcomp p hp)).2.1)
      have hF := parseFactor_paren (AExp.add a b) (tokensF_wrap_add a b) hE
      have hT := parseTerm_of_spine (AExp.add a b) hF (by intro p hp; simp [spineT] at hp)
      exact ⟨hF, hT, hE⟩
    | sub a b =>
      have hsz : sizeOf (AExp.sub a b) = 1 + sizeOf a + sizeOf b := by simp
      have hhead : sizeOf (spineE (AExp.sub a b)).1 ≤ N := by
        have h1 : (spineE (AExp.sub a b)).1 = (spineE a).1 := by simp [spineE]
        have h2 := (spineE_size a).1
        rw [h1]; omega
      have hcomp : ∀ p ∈ (spineE (AExp.sub a b)).2, sizeOf p.2 ≤ N := by
        intro p hp
        have h2 := (spineE_size (AExp.sub a b)).2 p hp
        omega
      have hE := parseExpr_of_spine (AExp.sub a b)
        ((ihN _ hhead).2.1)
        (fun p hp => (ihN p.2 (hcomp p hp)).2.1)
      have hF := parseFactor_paren (AExp.sub a b) (tokensF_wrap_sub a b) hE
      have hT := parseTerm_of_spine (AExp.sub a b) hF (by intro p hp; simp [spineT] at hp)
      exact ⟨hF, hT, hE⟩
    | mul a b =>
      have hsz : sizeOf (AExp.mul a b) = 1 + sizeOf a + sizeOf b := by simp
      have hhead : sizeOf (spineT (AExp.mul a b)).1 ≤ N := by
        have h1 : (spineT (AExp.mul a b)).1 = (spineT a).1 := by simp [spineT]
        have h2 := (spineT_size a).1
        rw [h1]; omega
      have hcomp : ∀ p ∈ (spineT (AExp.mul a b)).2, sizeOf p.2 ≤ N := by
        intro p hp
        have h2 := (spineT_size (AExp.mul a b)).2 p hp
        omega
      have hT := parseTerm_of_spine (AExp.mul a b)
        ((ihN _ hhead).1)
        (fun p hp => (ihN p.2 (hcomp p hp)).1)
      have hE := parseExpr_of_spine (AExp.mul a b) hT (by intro p hp; simp [spineE] at hp)
      have hF := parseFactor_paren (AExp.mul a b) (tokensF_wrap_mul a b) hE
      exact ⟨hF, hT, hE⟩
    | div a b =>
      have hsz : sizeOf (AExp.div a b) = 1 + sizeOf a + sizeOf b := by simp
      have hhead : sizeOf (spineT (AExp.div a b)).1 ≤ N := by
        have h1 : (spineT (AExp.div a b)).1 = (spineT a).1 := by simp [spineT]
        have h2 := (spineT_size a).1
        rw [h1]; omega
      have hcomp : ∀ p ∈ (spineT (AExp.div a b)).2, sizeOf p.2 ≤ N := by
        intro p hp
        have h2 := (spineT_size (AExp.div a b)).2 p hp
        omega
      have hT := parseTerm_of_spine (AExp.div a b)
        ((ihN _ hhead).1)
        (fun p hp => (ihN p.2 (hcomp p hp)).1)
      have hE := parseExpr_of_spine (AExp.div a b) hT (by intro p hp; simp [spineE] at hp)
      have hF := parseFactor_paren (AExp.div a b) (tokensF_wrap_div a b) hE
      exact ⟨hF, hT, hE⟩

theorem parser_correct (e : AExp) : ParserOK e :=
  parser_correct_aux (sizeOf e) e le_rfl

theorem evalTokens_denote_some (e : AExp) (q : ℚ) (h : denote e = some (some q)) :
    evalTokens (tokensE e) = some q := by
  have hE := (parser_correct e).2.2 [] (3 * (tokensE e).length + 4) (by trivial) (by omega)
  rw [List.append_nil] at hE
  rw [h] at hE
  have heq : parseExpression (3 * (tokensE e).length + 4) (tokensE e)
      = some (.ok (some (some q), [])) := hE
  unfold evalTokens
  rw [heq]
  rfl

theorem evalTokens_denote_none (e : AExp) (h : denote e = none) :
    evalTokens (tokensE e) = none := by
  have hE := (parser_correct e).2.2 [] (3 * (tokensE e).length + 4) (by trivial) (by omega)
  rw [List.append_nil] at hE
  rw [h] at hE
  have habs : ∀ (q : JNum) (rest1 : List Token),
      parseExpression (3 * (tokensE e).length + 4) (tokensE e)
        ≠ some (.ok (some q, rest1)) := hE
  unfold evalTokens
  cases hp : parseExpression (3 * (tokensE e).length + 4) (tokensE e) with
  | none => rfl
  | some ex =>
    cases ex with
    | error m => rfl
    | ok vp =>
      obtain ⟨v, rest⟩ := vp
      cases v with
      | some n => exact absurd hp (habs n rest)
      | none =>
        cases rest with
        | nil => rfl
        | cons t ts => rfl



theorem evalTokens_denote_nan (e : AExp) (h : denote e = some none) :
    evalTokens (tokensE e) = none := by
  have hE := (parser_correct e).2.2 [] (3 * (tokensE e).length + 4) (by trivial) (by omega)
  rw [List.append_nil] at hE
  rw [h] at hE
  have heq : parseExpression (3 * (tokensE e).length + 4) (tokensE e)
      = some (.ok (some none, [])) := hE
  unfold evalTokens
  rw [heq]
  rfl

/-- C1: the calc engine computes standard arithmetic.  For every expression
tree over numeric leaves, parsing its rendering (sums rendered without
parentheses, so the proof exercises the precedence of `*` and `/` over `+`
and `-` and the left-to-right association of equal precedence) returns
exactly its left-to-right, precedence-respecting denotation; `evaluate` is
that token evaluation composed with the field-substituting tokenizer; and
the concrete examples of the specification hold end to end, including
field substitution. -/
theorem evaluate_arithmetic_correct :
    (∀ (e : AExp) (q : ℚ), denote e = some (some q) → evalTokens (tokensE e) = some q)
  ∧ (∀ (s : String) (fv : List (String × JSValue)), s ≠ "" →
      evaluate (.str s) fv =
        match tokenize s fv with
        | .error _ => none
        | .ok none => none
        | .ok (some ts) => evalTokens ts)
  ∧ evaluate (.str "10 + 5 * 2") [] = some 20
  ∧ evaluate (.str "(10+5)*2") [] = some 30
  ∧ evaluate (.str "100/(10+15)") [] = some 4
  ∧ evaluate (.str "Running Distance / (Running Time / 60)")
      [("Running Distance", .num 5), ("Running Time", .num 30)] = some 10 := by
  refine ⟨fun e q h => evalTokens_denote_some e q h, ?_, ?_, ?_, ?_, ?_⟩
  · intro s fv hs
    simp only [evaluate]
    rw [if_neg hs]
  · have htok : tokensE (AExp.add (.lit (some 10)) (.mul (.lit (some 5)) (.lit (some 2))))
        = [Token.number (some 10), Token.operator '+', Token.number (some 5),
           Token.operator '*', Token.number (some 2)] := by
      simp [tokensE, tokensT, tokensF]
    have ht : tokenize "10 + 5 * 2" [] =
        .ok (some [Token.number (some 10), Token.operator '+', Token.number (some 5),
          Token.operator '*', Token.number (some 2)]) := by rfl
    have hden : denote (AExp.add (.lit (some 10)) (.mul (.lit (some 5)) (.lit (some 2))))
        = some (some 20) := by norm_num [denote, jadd, jmul]
    simp only [evaluate]
    rw [if_neg (by decide), ht, ← htok]
    exact evalTokens_denote_some _ 20 hden
  · have htok : tokensE (AExp.mul (.add (.lit (some 10)) (.lit (some 5))) (.lit (some 2)))
        = [Token.parenOpen, Token.number (some 10), Token.operator '+',
           Token.number (some 5), Token.parenClose, Token.operator '*',
           Token.number (some 2)] := by
      simp [tokensE, tokensT, tokensF]
    have ht : tokenize "(10+5)*2" [] =
        .ok (some [Token.parenOpen, Token.number (some 10), Token.operator '+',
          Token.number (some 5), Token.parenClose, Token.operator '*',
          Token.number (some 2)]) := by rfl
    have hden : denote (AExp.mul (.add (.lit (some 10)) (.lit (some 5))) (.lit (some 2)))
        = some (some 30) := by norm_num [denote, jadd, jmul]
    simp only [evaluate]
    rw [if_neg (by decide), ht, ← htok]
    exact evalTokens_denote_some _ 30 hden
  · have htok : tokensE (AExp.div (.lit (some 100)) (.add (.lit (some 10)) (.lit (some 15))))
        = [Token.number (some 100), Token.operator '/', Token.parenOpen,
           Token.number (some 10), Token.operator '+', Token.number (some 15),
           Token.parenClose] := by
      simp [tokensE, tokensT, tokensF]
    have ht : tokenize "100/(10+15)" [] =
        .ok (some [Token.number (some 100), Token.operator '/', Token.parenOpen,
          Token.number (some 10), Token.operator '+', Token.number (some 15),
          Token.parenClose]) := by rfl
    have hden : denote (AExp.div (.lit (some 100)) (.add (.lit (some 10)) (.lit (some 15))))
        = some (some 4) := by norm_num [denote, jadd, jdiv]
    simp only [evaluate]
    rw [if_neg (by decide), ht, ← htok]
    exact evalTokens_denote_some _ 4 hden
  · have htok : tokensE (AExp.div (.lit (some 5)) (.div (.lit (some 30)) (.lit (some 60))))
        = [Token.number (some 5), Token.operator '/', Token.parenOpen,
           Token.number (some 30), Token.operator '/', Token.number (some 60),
           Token.parenClose] := by
      simp [tokensE, tokensT, tokensF]
    have ht : tokenize "Running Distance / (Running Time / 60)"
        [("Running Distance", .num 5), ("Running Time", .num 30)] =
        .ok (some [Token.number (some 5), Token.operator '/', Token.parenOpen,
          Token.number (some 30), Token.operator '/', Token.number (some 60),
          Token.parenClose]) := by rfl
    have hden : denote (AExp.div (.lit (some 5)) (.div (.lit (some 30)) (.lit (some 60))))
        = some (some 10) := by norm_num [denote, jdiv]
    simp only [evaluate]
    rw [if_neg (by decide), ht, ← htok]
    exact evalTokens_denote_some _ 10 hden

theorem evaluate_arithmetic_correct_witness :
    denote (AExp.sub (.sub (.lit (some 10)) (.lit (some 3))) (.lit (some 2)))
      = some (some 5)
  ∧ evalTokens (tokensE (AExp.sub (.sub (.lit (some 10)) (.lit (some 3))) (.lit (some 2))))
      = some 5 :=
  ⟨by norm_num [denote, jsub],
   evaluate_arithmetic_correct.1 _ 5 (by norm_num [denote, jsub])⟩

/-- C3: `evaluate` never lets an exception escape: its model is a total
function whose every outcome is either a number or `null`, and every
listed failure mode — null or non-string or empty expression, an
unrecognized character, a malformed token sequence, an unbalanced
parenthesis, trailing unconsumed tokens, division by zero, a missing
dependency, and a non-finite result — concretely returns `null`. -/
theorem evaluate_never_throws :
    (∀ (expression : JSValue) (fv : List (String × JSValue)),
      evaluate expression fv = none ∨ ∃ q : ℚ, evaluate expression fv = some q)
  ∧ evaluate (.str "10 + * 5") [] = none
  ∧ evaluate (.str "10 + (5") [] = none
  ∧ evaluate .null [] = none
  ∧ evaluate (.num 3) [] = none
  ∧ evaluate (.str "") [] = none
  ∧ evaluate (.str "10 @ 5") [] = none
  ∧ evaluate (.str "10 5") [] = none
  ∧ evaluate (.str "10 / 0") [] = none
  ∧ evaluate (.str "A + 1") [("A", .null)] = none
  ∧ evaluate (.str "A") [("A", .bool true)] = none := by
  refine ⟨?_, by rfl, by rfl, by rfl, by rfl, by rfl, by rfl, by rfl, by rfl, by rfl, by rfl⟩
  intro expression fv
  cases h : evaluate expression fv with
  | none => exact Or.inl rfl
  | some q => exact Or.inr ⟨q, rfl⟩

/-- C4: a division whose right operand evaluates to exactly zero denotes
`null`; a `null` subresult poisons every enclosing operation (both operand
positions and unary minus); a `null` denotation always surfaces as a
`null` return of the token evaluation; and concretely
`evaluate("10 / 0")` and `evaluate("10 / (5-5)")` are `null`. -/
theorem evaluate_division_by_zero_null :
    (∀ a b : AExp, denote b = some (some 0) → denote (AExp.div a b) = none)
  ∧ (∀ a b : AExp, denote a = none →
      denote (AExp.add a b) = none ∧ denote (AExp.sub a b) = none
        ∧ denote (AExp.mul a b) = none ∧ denote (AExp.div a b) = none
        ∧ denote (AExp.add b a) = none ∧ denote (AExp.sub b a) = none
        ∧ denote (AExp.mul b a) = none ∧ denote (AExp.div b a) = none
        ∧ denote (AExp.neg a) = none)
  ∧ (∀ e : AExp, denote e = none → evalTokens (tokensE e) = none)
  ∧ evaluate (.str "10 / 0") [] = none
  ∧ evaluate (.str "10 / (5 - 5)") [] = none := by
  refine ⟨?_, ?_, fun e h => evalTokens_denote_none e h, by rfl, ?_⟩
  · intro a b hb
    cases ha : denote a <;> simp [denote, ha, hb]
  · intro a b ha
    refine ⟨by simp [denote, ha], by simp [denote, ha], by simp [denote, ha], ?_,
      by cases hb : denote b <;> simp [denote, ha, hb],
      by cases hb : denote b <;> simp [denote, ha, hb],
      by cases hb : denote b <;> simp [denote, ha, hb], ?_,
      by simp [denote, ha]⟩
    · simp [denote, ha]
    · cases hb : denote b with
      | none => simp [denote, ha, hb]
      | some y => simp only [denote, ha, hb]
  · have htok : tokensE (AExp.div (.lit (some 10)) (.sub (.lit (some 5)) (.lit (some 5))))
        = [Token.number (some 10), Token.operator '/', Token.parenOpen,
           Token.number (some 5), Token.operator '-', Token.number (some 5),
           Token.parenClose] := by
      simp [tokensE, tokensT, tokensF]
    have ht : tokenize "10 / (5 - 5)" [] =
        .ok (some [Token.number (some 10), Token.operator '/', Token.parenOpen,
          Token.number (some 5), Token.operator '-', Token.number (some 5),
          Token.parenClose]) := by rfl
    have hden : denote (AExp.div (.lit (some 10)) (.sub (.lit (some 5)) (.lit (some 5))))
        = none := by norm_num [denote, jsub]
    simp only [evaluate]
    rw [if_neg (by decide), ht, ← htok]
    exact evalTokens_denote_none _ hden

theorem evaluate_division_by_zero_null_witness :
    denote (AExp.div (.lit (some 10)) (.lit (some 0))) = none
  ∧ evalTokens (tokensE (AExp.div (.lit (some 10)) (.lit (some 0)))) = none
  ∧ denote (AExp.lit (some 0)) = some (some 0) :=
  ⟨evaluate_division_by_zero_null.1 (.lit (some 10)) (.lit (some 0)) (by rfl),
   evaluate_division_by_zero_null.2.2.1 (AExp.div (.lit (some 10)) (.lit (some 0)))
     (evaluate_division_by_zero_null.1 (.lit (some 10)) (.lit (some 0)) (by rfl)),
   by rfl⟩

theorem insertByLen_mem (x : String) (l : List String) (z : String) :
    z ∈ insertByLen x l ↔ z = x ∨ z ∈ l := by
  induction l with
  | nil => simp [insertByLen]
  | cons y ys ih =>
    by_cases h : y.length ≤ x.length
    · simp [insertByLen, h]
    · simp [insertByLen, h, ih]
      tauto

theorem insertByLen_pairwise (x : String) (l : List String)
    (h : l.Pairwise (fun a b => b.length ≤ a.length)) :
    (insertByLen x l).Pairwise (fun a b => b.length ≤ a.length) := by
  induction l with
  | nil => simp [insertByLen]
  | cons y ys ih =>
    rcases List.pairwise_cons.mp h with ⟨hy, hys⟩
    by_cases hc : y.length ≤ x.length
    · simp only [insertByLen, if_pos hc]
      refine List.pairwise_cons.mpr ⟨?_, h⟩
      intro z hz
      rcases List.mem_cons.mp hz with hz | hz
      · subst hz; exact hc
      · exact le_trans (hy z hz) hc
    · simp only [insertByLen, if_neg hc]
      refine List.pairwise_cons.mpr ⟨?_, ih hys⟩
      intro z hz
      rcases (insertByLen_mem x ys z).mp hz with hz | hz
      · subst hz; omega
      · exact hy z hz

theorem insertByLen_perm (x : String) (l : List String) :
    (insertByLen x l).Perm (x :: l) := by
  induction l with
  | nil => simp [insertByLen]
  | cons y ys ih =>
    by_cases h : y.length ≤ x.length
    · simp [insertByLen, h]
    · simp only [insertByLen, if_neg h]
      exact (ih.cons y).trans (List.Perm.swap x y ys)

theorem sortFieldNames_perm (l : List String) : (sortFieldNames l).Perm l := by
  induction l with
  | nil => simp [sortFieldNames]
  | cons x xs ih =>
    exact (insertByLen_perm x (sortFieldNames xs)).trans (ih.cons x)

theorem sortFieldNames_pairwise (l : List String) :
    (sortFieldNames l).Pairwise (fun a b => b.length ≤ a.length) := by
  induction l with
  | nil => simp [sortFieldNames]
  | cons x xs ih => exact insertByLen_pairwise x _ ih

theorem find_decomp {α : Type} (p : α → Bool) (l : List α) (f : α)
    (h : List.find? p l = some f) :
    p f = true ∧ ∃ l1 l2, l = l1 ++ f :: l2 ∧ ∀ g ∈ l1, p g = false := by
  induction l with
  | nil => simp [List.find?] at h
  | cons x xs ih =>
    by_cases hx : p x
    · rw [List.find?_cons_of_pos _ hx] at h
      obtain rfl : x = f := by injection h
      exact ⟨hx, [], xs, rfl, by intro g hg; simp at hg⟩
    · rw [List.find?_cons_of_neg _ (by simpa using hx)] at h
      obtain ⟨hpf, l1, l2, rfl, hl1⟩ := ih h
      refine ⟨hpf, x :: l1, l2, rfl, ?_⟩
      intro g hg
      rcases List.mem_cons.mp hg with hg | hg
      · subst hg; simpa using hx
      · exact hl1 g hg

theorem prefix_same_length_eq (a b : String) (cs : List Char)
    (ha : a.data.isPrefixOf cs = true) (hb : b.data.isPrefixOf cs = true)
    (hlen : a.length = b.length) : a = b := by
  have ha2 : a.data <+: cs := List.isPrefixOf_iff_prefix.mp ha
  have hb2 : b.data <+: cs := List.isPrefixOf_iff_prefix.mp hb
  obtain ⟨ta, hta⟩ := ha2
  obtain ⟨tb, htb⟩ := hb2
  have hlen2 : a.data.length = b.data.length := hlen
  have h1 : a.data = cs.take a.data.length := by
    rw [← hta, List.take_left]
  have h2 : b.data = cs.take b.data.length := by
    rw [← htb, List.take_left]
  have hd : a.data = b.data := by rw [h1, h2, hlen2]
  exact congrArg String.mk hd

/-- C5: greedy longest-match field resolution.  If the matching loop over
the length-sorted field names resolves a match `f` at some scan position,
then `f` is a key of the map, it is a prefix of the remaining input, every
key matching at that position is at most as long as `f`, and every OTHER
key matching there is strictly shorter (so ties are impossible and the
first-found key wins trivially); consequently a map containing both
"Time" and "Running Time" tokenizes the text "Running Time" as the single
token of "Running Time". -/
theorem tokenize_longest_match :
    (∀ (keys : List String) (cs : List Char) (f : String),
      matchField (sortFieldNames keys) cs = some f →
      f ∈ keys ∧ f.data.isPrefixOf cs = true
        ∧ (∀ g ∈ keys, g.data.isPrefixOf cs = true → g.length ≤ f.length)
        ∧ (∀ g ∈ keys, g.data.isPrefixOf cs = true → g ≠ f → g.length < f.length))
  ∧ tokenize "Running Time" [("Time", .num 1), ("Running Time", .num 2)]
      = .ok (some [Token.number (some 2)]) := by
  constructor
  · intro keys cs f h
    obtain ⟨hpf, l1, l2, hdec, hl1⟩ := find_decomp _ _ _ h
    have hperm := sortFieldNames_perm keys
    have hmemf : f ∈ keys := hperm.mem_iff.mp (by rw [hdec]; simp)
    have hlong : ∀ g ∈ keys, g.data.isPrefixOf cs = true → g.length ≤ f.length := by
      intro g hg hgp
      have hgs : g ∈ sortFieldNames keys := hperm.mem_iff.mpr hg
      rw [hdec] at hgs
      rcases List.mem_append.mp hgs with hgs | hgs
      · exact absurd hgp (by simp [hl1 g hgs])
      · rcases List.mem_cons.mp hgs with hgs | hgs
        · subst hgs; exact le_rfl
        · have hpw := sortFieldNames_pairwise keys
          rw [hdec] at hpw
          have := (List.pairwise_append.mp hpw).2.1
          exact (List.pairwise_cons.mp this).1 g hgs
    refine ⟨hmemf, hpf, hlong, ?_⟩
    intro g hg hgp hne
    rcases lt_or_eq_of_le (hlong g hg hgp) with hlt | heq
    · exact hlt
    · exact absurd (prefix_same_length_eq g f cs hgp hpf heq) hne
  · rfl

theorem tokenize_longest_match_witness :
    matchField (sortFieldNames ["Run", "Running"]) "Running Time".data = some "Running"
  ∧ "Running" ∈ ["Run", "Running"]
  ∧ "Run".length ≤ "Running".length
  ∧ "Run".length < "Running".length := by
  have h : matchField (sortFieldNames ["Run", "Running"]) "Running Time".data
      = some "Running" := by rfl
  have hc := tokenize_longest_match.1 ["Run", "Running"] "Running Time".data "Running" h
  exact ⟨h, hc.1, hc.2.2.1 "Run" (by decide) (by decide),
    hc.2.2.2 "Run" (by decide) (by decide) (by decide)⟩

theorem resolveStep_eq (fv : List (String × JSValue)) (name : String)
    (r : Except String (Option (List Token))) :
    resolveStep fv name r =
      match fieldResolve fv name with
      | none => .ok none
      | some q => consTok (Token.number q) r := by
  unfold resolveStep fieldResolve
  cases List.lookup name fv with
  | none => rfl
  | some v => cases v <;> rfl

theorem tokenizeAux_ext (fv1 fv2 : List (String × JSValue)) (names : List String)
    (hres : ∀ k, fieldResolve fv1 k = fieldResolve fv2 k) :
    ∀ (fuel : Nat) (cs : List Char),
      tokenizeAux fv1 names fuel cs = tokenizeAux fv2 names fuel cs := by
  intro fuel
  induction fuel with
  | zero => intro cs; rfl
  | succ fuel ih =>
    intro cs
    cases cs with
    | nil => rfl
    | cons c cs =>
      simp only [tokenizeAux]
      by_cases h1 : isWsChar c
      · simp [h1, ih]
      · by_cases h2 : c = '('
        · simp [h1, h2, ih]
        · by_cases h3 : c = ')'
          · simp [h1, h2, h3, ih]
          · by_cases h4 : c = '+' ∨ c = '-' ∨ c = '*' ∨ c = '/'
            · simp [h1, h2, h3, h4, ih]
            · simp only [h1, h2, h3, h4, if_false, Bool.false_eq_true, if_neg,
                not_false_iff]
              cases hlex : lexNumber (c :: cs) with
              | some p =>
                obtain ⟨q, rest⟩ := p
                simp [h1, h2, h3, h4, hlex, ih]
              | none =>
                cases hm : matchField names (c :: cs) with
                | none => simp [h1, h2, h3, h4, hlex, hm]
                | some name =>
                  simp only [h1, h2, h3, h4, hlex, hm, if_false, Bool.false_eq_true]
                  rw [resolveStep_eq, resolveStep_eq, hres name, ih]

theorem tokenize_ext (s : String) (fv1 fv2 : List (String × JSValue))
    (hkeys : fv1.map Prod.fst = fv2.map Prod.fst)
    (hres : ∀ k, fieldResolve fv1 k = fieldResolve fv2 k) :
    tokenize s fv1 = tokenize s fv2 := by
  unfold tokenize
  rw [hkeys]
  exact tokenizeAux_ext fv1 fv2 _ hres _ _

/-- C10: the tokenizer uses a matched field's non-null value only through
its `parseFloat` coercion, so two value maps with the same keys whose
values resolve identically (same null-ness, same `parseFloat` result) make
`evaluate` agree on every expression; a numeric string like "5" therefore
behaves exactly like the number 5, and a value whose coercion is `NaN`
(a boolean, a non-numeric string) makes the result `NaN`, which the final
finiteness check turns into `null` instead of raising or returning a
partial result. -/
theorem evaluate_parsefloat_coercion :
    (∀ (s : String) (fv1 fv2 : List (String × JSValue)),
      fv1.map Prod.fst = fv2.map Prod.fst →
      (∀ k, fieldResolve fv1 k = fieldResolve fv2 k) →
      evaluate (.str s) fv1 = evaluate (.str s) fv2)
  ∧ jsParseFloat (.str "5") = some 5
  ∧ evaluate (.str "X + 1") [("X", .str "5")] = some 6
  ∧ evaluate (.str "X + 1") [("X", .num 5)] = some 6
  ∧ jsParseFloat (.bool true) = none
  ∧ evaluate (.str "X + 1") [("X", .bool true)] = none
  ∧ jsParseFloat (.str "abc") = none
  ∧ evaluate (.str "X") [("X", .str "abc")] = none := by
  have h5 : jsParseFloat (.str "5") = some 5 := by
    rw [show jsParseFloat (.str "5") = some (((1 : Int) : ℚ) * ((5 : Nat) : ℚ)) from rfl]
    norm_num
  refine ⟨?_, h5, ?_, ?_, by rfl, ?_, by rfl, ?_⟩
  · intro s fv1 fv2 hk hr
    simp only [evaluate]
    by_cases hs : s = ""
    · rw [if_pos hs, if_pos hs]
    · rw [if_neg hs, if_neg hs, tokenize_ext s fv1 fv2 hk hr]
  · have htok : tokensE (AExp.add (.lit (jsParseFloat (.str "5"))) (.lit (some 1)))
        = [Token.number (jsParseFloat (.str "5")), Token.operator '+',
           Token.number (some 1)] := by
      simp [tokensE, tokensT, tokensF]
    have ht : tokenize "X + 1" [("X", .str "5")] =
        .ok (some [Token.number (jsParseFloat (.str "5")), Token.operator '+',
          Token.number (some 1)]) := by rfl
    have hden : denote (AExp.add (.lit (jsParseFloat (.str "5"))) (.lit (some 1)))
        = some (some 6) := by
      rw [show denote (AExp.add (.lit (jsParseFloat (.str "5"))) (.lit (some 1)))
          = some (jadd (jsParseFloat (.str "5")) (some 1)) from rfl, h5]
      norm_num [jadd]
    simp only [evaluate]
    rw [if_neg (by decide), ht, ← htok]
    exact evalTokens_denote_some _ 6 hden
  · have htok : tokensE (AExp.add (.lit (some 5)) (.lit (some 1)))
        = [Token.number (some 5), Token.operator '+', Token.number (some 1)] := by
      simp [tokensE, tokensT, tokensF]
    have ht : tokenize "X + 1" [("X", .num 5)] =
        .ok (some [Token.number (some 5), Token.operator '+', Token.number (some 1)]) := by
      rfl
    have hden : denote (AExp.add (.lit (some 5)) (.lit (some 1))) = some (some 6) := by
      norm_num [denote, jadd]
    simp only [evaluate]
    rw [if_neg (by decide), ht, ← htok]
    exact evalTokens_denote_some _ 6 hden
  · have htok : tokensE (AExp.add (.lit none) (.lit (some 1)))
        = [Token.number none, Token.operator '+', Token.number (some 1)] := by
      simp [tokensE, tokensT, tokensF]
    have ht : tokenize "X + 1" [("X", .bool true)] =
        .ok (some [Token.number none, Token.operator '+', Token.number (some 1)]) := by
      rfl
    have hden : denote (AExp.add (.lit none) (.lit (some 1))) = some none := by
      simp [denote, jadd]
    simp only [evaluate]
    rw [if_neg (by decide), ht, ← htok]
    exact evalTokens_denote_nan _ hden
  · have htok : tokensE (AExp.lit none) = [Token.number none] := by
      simp [tokensE, tokensT, tokensF]
    have ht : tokenize "X" [("X", .str "abc")] = .ok (some [Token.number none]) := by rfl
    have hden : denote (AExp.lit none) = some none := by simp [denote]
    simp only [evaluate]
    rw [if_neg (by decide), ht, ← htok]
    exact evalTokens_denote_nan _ hden

theorem evaluate_parsefloat_coercion_witness :
    evaluate (.str "X + 1") [("X", .str "5")]
      = evaluate (.str "X + 1") [("X", .num 5)] := by
  have hres : ∀ k, fieldResolve [("X", .str "5")] k = fieldResolve [("X", .num 5)] k := by
    intro k
    by_cases hk : k = "X"
    · subst hk
      rw [show fieldResolve [("X", .str "5")] "X" = some (jsParseFloat (.str "5")) from rfl,
        show fieldResolve [("X", .num 5)] "X" = some (some 5) from rfl,
        show jsParseFloat (.str "5") = some (((1 : Int) : ℚ) * ((5 : Nat) : ℚ)) from rfl]
      norm_num
    · have hbeq : (k == "X") = false := beq_eq_false_iff_ne.mpr hk
      simp [fieldResolve, List.lookup, hbeq]
  exact evaluate_parsefloat_coercion.1 "X + 1" _ _ (by rfl) hres

/-- C2: missing-dependency poisoning.  Whenever the tokenizer signals a
missing dependency (its `ok none` return), `evaluate` returns `null` for
the whole expression; the tokenizer does signal it as soon as the matching
loop resolves a field whose value is null or absent, aborting the entire
scan; and concretely an expression whose other operand is perfectly valid
still evaluates to `null` when one referenced field is null, or absent
from the map. -/
theorem evaluate_missing_dependency_null :
    (∀ (s : String) (fv : List (String × JSValue)), tokenize s fv = .ok none →
      evaluate (.str s) fv = none)
  ∧ (∀ (fv : List (String × JSValue)) (names : List String) (fuel : Nat)
        (c : Char) (cs : List Char) (name : String),
      isWsChar c = false → c ≠ '(' → c ≠ ')' →
      ¬(c = '+' ∨ c = '-' ∨ c = '*' ∨ c = '/') →
      lexNumber (c :: cs) = none →
      matchField names (c :: cs) = some name →
      fieldResolve fv name = none →
      tokenizeAux fv names (fuel + 1) (c :: cs) = .ok none)
  ∧ evaluate (.str "5 + Foo") [("Foo", .null)] = none
  ∧ evaluate (.str "5 + Foo") [("Bar", .num 1)] = none := by
  refine ⟨?_, ?_, by rfl, by rfl⟩
  · intro s fv h
    simp only [evaluate]
    by_cases hs : s = ""
    · rw [if_pos hs]
    · rw [if_neg hs, h]
  · intro fv names fuel c cs name h1 h2 h3 h4 h5 h6 h7
    simp only [tokenizeAux, h1, h2, h3, h4, h5, h6, if_false, Bool.false_eq_true]
    rw [resolveStep_eq, h7]

theorem evaluate_missing_dependency_null_witness :
    evaluate (.str "5 + Foo") [("Foo", .null)] = none
  ∧ tokenizeAux [("Foo", .null)] ["Foo"] 3 ('F' :: "oo".data) = .ok none :=
  ⟨evaluate_missing_dependency_null.1 "5 + Foo" [("Foo", .null)] (by rfl),
   evaluate_missing_dependency_null.2.1 [("Foo", .null)] ["Foo"] 2 'F' "oo".data "Foo"
     (by decide) (by decide) (by decide) (by decide) (by rfl) (by rfl) (by rfl)⟩
